import Mathlib

/-!
Verification of the Chordify chord-filter userscript (src/chord-sorter.js).

The DOM is modelled as a nested inductive tree of element and text nodes; a
document is the forest of children of the (non-element) Document node, so that
`querySelectorAll` run against `document` sees every element of the forest.
Machine-level DOM details that the script never observes (node identity,
namespaces, live collections other than the static `querySelectorAll`
snapshots actually used) are not modelled.  Unicode NFC normalization is
modelled as the identity function: every string the script compares against
(the 28 blocklist entries and the literal "Summary") is NFC-invariant, and the
embedding ranges over already-normalized strings.  `String.prototype.trim` and
`toLowerCase` are modelled directly on character lists.
-/

namespace ChordSorter

/-- A DOM node: a text node, or an element with a tag name, a class list,
an attribute list (which also models the `dataset`) and children. -/
inductive Node : Type where
  | text (s : String) : Node
  | elem (tag : String) (classes : List String) (attrs : List (String × String))
      (children : List Node) : Node

/-- A document is the forest of nodes below the Document node. -/
abbrev Forest := List Node

/-- A position in a document: the path of child indices from the document root. -/
abbrev Pos := List Nat

/-- Characters treated as whitespace by `String.prototype.trim` / `\s`
(the ones that can occur in this page's text). -/
def isWs (c : Char) : Bool :=
  c = ' ' || c = '\t' || c = '\n' || c = '\r' || c = ' '

/-- Model of `String.prototype.trim`. -/
def trimStr (s : String) : String :=
  String.mk (((s.data.dropWhile isWs).reverse.dropWhile isWs).reverse)

/-- `normalize` from the script: `(s || '').trim().normalize('NFC')`,
with NFC modelled as the identity (see the file comment). -/
def normalize (s : String) : String := trimStr s

/-- ASCII lower-casing, as used to model the case-insensitive comparisons
(`localeCompare(..., sensitivity: 'base')` and `/^summary$/i`). -/
def lowerChar (c : Char) : Char :=
  if 'A' ≤ c ∧ c ≤ 'Z' then Char.ofNat (c.toNat + 32) else c

/-- Lower-case a whole string. -/
def lowerStr (s : String) : String := String.mk (s.data.map lowerChar)

/-- `blockedChordsList` from the script: the static exclusion list. -/
def blockedChordsList : List String :=
  ["A", "B", "C", "D", "E", "F", "G",
   "Aₘ", "Bₘ", "Cₘ", "Dₘ", "Eₘ", "Fₘ", "Gₘ",
   "A♭", "B♭", "C♭", "D♭", "E♭", "F♭", "G♭",
   "A♭ₘ", "B♭ₘ", "C♭ₘ", "D♭ₘ", "E♭ₘ", "F♭ₘ", "G♭ₘ"]

/-- Membership in `blockedChords` (the `Set` built from `blockedChordsList`). -/
def blockedChords (s : String) : Bool := blockedChordsList.contains s

mutual

/-- `textContent` of a node: concatenation of all descendant text. -/
def textContent : Node → String
  | .text s => s
  | .elem _ _ _ cs => textContentList cs

/-- `textContent` of a list of nodes. -/
def textContentList : List Node → String
  | [] => ""
  | c :: cs => textContent c ++ textContentList cs

end

/-- Class-list membership (`classList.contains`). -/
def hasClass (n : Node) (cl : String) : Bool :=
  match n with
  | .text _ => false
  | .elem _ classes _ _ => classes.contains cl

/-- Tag of a node (empty for text nodes). -/
def tagOf (n : Node) : String :=
  match n with
  | .text _ => ""
  | .elem tag _ _ _ => tag

/-- Children of a node (empty for text nodes). -/
def childrenOf (n : Node) : List Node :=
  match n with
  | .text _ => []
  | .elem _ _ _ cs => cs

/-- Attribute lookup. -/
def attrOf (n : Node) (key : String) : Option String :=
  match n with
  | .text _ => none
  | .elem _ _ attrs _ => (attrs.find? (fun kv => kv.1 == key)).map (·.2)

/-- `isTargetSpan` from the script: the span has class `cbg1qdk` and its
normalized text is in the blocklist.  (The tag is not checked here; the
callers' selectors check it.) -/
def isTargetSpan (n : Node) : Bool :=
  hasClass n "cbg1qdk" && blockedChords (normalize (textContent n))

/-- Whether a node matches the selector `span.cbg1qdk`. -/
def isSpanSel (n : Node) : Bool :=
  tagOf n == "span" && hasClass n "cbg1qdk"

/-- Whether a node matches the selector `div.deu1fhf`. -/
def isDeuDiv (n : Node) : Bool :=
  tagOf n == "div" && hasClass n "deu1fhf"

/-- Whether a node is a `div` at all. -/
def isDiv (n : Node) : Bool := tagOf n == "div"

/-- Prefix test on character lists. -/
def isPreChars : List Char → List Char → Bool
  | [], _ => true
  | _ :: _, [] => false
  | a :: as_, b :: bs => a == b && isPreChars as_ bs

/-- Substring test on character lists. -/
def containsSubChars (pat : List Char) : List Char → Bool
  | [] => isPreChars pat []
  | c :: cs => isPreChars pat (c :: cs) || containsSubChars pat cs

/-- Substring test on strings (models `[href*="..."]`). -/
def containsSub (pat s : String) : Bool := containsSubChars pat.data s.data

/-- The diagram-URL fragment the chord-block guard looks for. -/
def diagramFrag : String := "/api/v2/diagrams/instruments/"

mutual

/-- Does this subtree contain a `use` element whose `href` contains the
diagram fragment and which has an `svg` ancestor?  `inSvg` records whether
an ancestor seen so far is an `svg`. -/
def hasDiagramUse (inSvg : Bool) : Node → Bool
  | .text _ => false
  | .elem tag _ attrs cs =>
      (inSvg && tag == "use" &&
        (match (attrs.find? (fun kv => kv.1 == "href")).map (·.2) with
         | some v => containsSub diagramFrag v
         | none => false)) ||
      hasDiagramUseList (inSvg || tag == "svg") cs

/-- List version of `hasDiagramUse`. -/
def hasDiagramUseList (inSvg : Bool) : List Node → Bool
  | [] => false
  | c :: cs => hasDiagramUse inSvg c || hasDiagramUseList inSvg cs

end

/-- `isChordBlock` from the script:
`el.querySelector('svg use[href*="/api/v2/diagrams/instruments/"]')` is
non-null, i.e. some strict descendant `use` with a diagram `href` sits under
an `svg` (the element itself counted as a potential `svg` ancestor). -/
def isChordBlock (n : Node) : Bool :=
  match n with
  | .text _ => false
  | .elem tag _ _ cs => hasDiagramUseList (tag == "svg") cs

/-- Node lookup at a position inside a single node. -/
def getN : Node → Pos → Option Node
  | n, [] => some n
  | .text _, _ :: _ => none
  | .elem _ _ _ cs, i :: p =>
      match cs[i]? with
      | some c => getN c p
      | none => none

/-- Node lookup at a position in a forest. -/
def getF (f : Forest) (p : Pos) : Option Node :=
  match p with
  | [] => none
  | i :: p =>
      match f[i]? with
      | some c => getN c p
      | none => none

/-- Boolean prefix test on positions (is `q` an ancestor-or-self of `p`?). -/
def isPre : Pos → Pos → Bool
  | [], _ => true
  | _ :: _, [] => false
  | a :: as_, b :: bs => a == b && isPre as_ bs

mutual

/-- Pre-order (document-order) positions, inside one node at prefix `q`,
of the elements satisfying `pred` (the node itself included). -/
def posOfN (pred : Node → Bool) (q : Pos) : Node → List Pos
  | .text _ => []
  | .elem t c a cs =>
      (if pred (.elem t c a cs) then [q] else []) ++ posOfL pred q 0 cs

/-- Pre-order positions in a child list starting at sibling index `i`. -/
def posOfL (pred : Node → Bool) (q : Pos) (i : Nat) : List Node → List Pos
  | [] => []
  | c :: cs => posOfN pred (q ++ [i]) c ++ posOfL pred q (i + 1) cs

end

/-- Pre-order positions of the matching elements of a whole document
(`document.querySelectorAll` visits every element of the forest). -/
def posOfF (pred : Node → Bool) (f : Forest) : List Pos := posOfL pred [] 0 f

/-- Positions of `span.cbg1qdk` elements, in document order. -/
def spanPositions (f : Forest) : List Pos := posOfF isSpanSel f

/-- Positions of `div.deu1fhf` elements, in document order. -/
def deuDivPositions (f : Forest) : List Pos := posOfF isDeuDiv f

/-- Self-and-ancestor positions of `p`, nearest first, the Document root
excluded (an `Element.closest` walk never reaches past the forest roots). -/
def ancPrefixes (p : Pos) : List Pos :=
  (List.range p.length).reverse.map (fun k => p.take (k + 1))

/-- `chordContainerFor` from the script:
`span.closest('div.deu1fhf') || span.closest('div')`. -/
def chordContainerFor (f : Forest) (p : Pos) : Option Pos :=
  match (ancPrefixes p).find? (fun q =>
      match getF f q with | some n => isDeuDiv n | none => false) with
  | some q => some q
  | none =>
      (ancPrefixes p).find? (fun q =>
        match getF f q with | some n => isDiv n | none => false)

/-- A position is live w.r.t. a set of removed subtree roots `R` when no
removed root is an ancestor-or-self of it. -/
def live (R : List Pos) (p : Pos) : Bool := R.all (fun r => !(isPre r p))

mutual

/-- Remove from a node (sitting at position `q`) every subtree whose root
position is in `R`. -/
def pruneN (R : List Pos) (q : Pos) : Node → Node
  | .text s => .text s
  | .elem t c a cs => .elem t c a (pruneL R q 0 cs)

/-- Remove the dead children (and recursively, dead descendants) from a child
list starting at sibling index `i` below position `q`. -/
def pruneL (R : List Pos) (q : Pos) (i : Nat) : List Node → List Node
  | [] => []
  | n :: ns =>
      (if live R (q ++ [i]) then [pruneN R (q ++ [i]) n] else []) ++ pruneL R q (i + 1) ns

end

/-- Remove from a document every subtree rooted at a position in `R`.
This is the document-level effect of a sequence of `Element.remove()` calls
on the nodes at those positions. -/
def prune (f : Forest) (R : List Pos) : Forest := pruneL R [] 0 f

/-- One iteration of `purge`'s `forEach` body, acting on the snapshot span at
position `p` (positions refer to the document as it was when the snapshot was
taken). A span that is already detached (not live) only mutates its detached
subtree, which has no document-level effect; for a live span the container is
resolved through its (unchanged, still attached) ancestor chain and the
chord-block guard is evaluated against the container's current — partially
pruned — subtree. -/
def purgeStep (f : Forest) (R : List Pos) (p : Pos) : List Pos :=
  match getF f p with
  | none => R
  | some n =>
      if live R p && isTargetSpan n then
        match chordContainerFor f p with
        | none => R
        | some c =>
            match getF f c with
            | none => R
            | some cn => if isChordBlock (pruneN R c cn) then R ++ [c] else R
      else R

/-- The subtree roots removed by running `purge`'s loop over a given snapshot
of span positions. -/
def purgeRemovalsOver (f : Forest) (ps : List Pos) : List Pos :=
  ps.foldl (purgeStep f) []

/-- The subtree roots removed by `purge(document)`. -/
def purgeRemovals (f : Forest) : List Pos :=
  purgeRemovalsOver f (spanPositions f)

/-- `purge(document)` from the script: iterate over the static
`querySelectorAll('span.cbg1qdk')` snapshot, removing each target span's
chord container when the chord-block guard passes. -/
def purge (f : Forest) : Forest := prune f (purgeRemovals f)

/-- The container contributed by one span according to the specification's
wording for claim C1: a target `span.cbg1qdk` contributes its chord container
provided the container passes the chord-diagram guard (evaluated on the
original document). -/
def specContrib (f : Forest) (p : Pos) : Option Pos :=
  match getF f p with
  | none => none
  | some n =>
      if isTargetSpan n then
        match chordContainerFor f p with
        | none => none
        | some c =>
            match getF f c with
            | none => none
            | some cn => if isChordBlock cn then some c else none
      else none

/-- The containers that the specification sentence of claim C1 says are
removed: those containing a blocklisted `span.cbg1qdk` descendant and passing
the chord-diagram guard. -/
def specContainers (f : Forest) : List Pos :=
  (spanPositions f).filterMap (specContrib f)

/-- Purge as claim C1 describes it: remove exactly the containers of
`specContainers`, leave every other element in place. -/
def specPurge (f : Forest) : Forest := prune f (specContainers f)

mutual

/-- Number of element nodes in a subtree. -/
def countElemsN : Node → Nat
  | .text _ => 0
  | .elem _ _ _ cs => 1 + countElemsL cs

/-- Number of element nodes in a node list. -/
def countElemsL : List Node → Nat
  | [] => 0
  | c :: cs => countElemsN c + countElemsL cs

end

/-- Number of element nodes in a document. -/
def countElemsF (f : Forest) : Nat := countElemsL f

/-- A sortable chord block: a `div.deu1fhf` passing the chord-block guard
(the `.filter(isChordBlock)` in `sortChordBlocks`). -/
def isSortBlock (n : Node) : Bool := isDeuDiv n && isChordBlock n

mutual

/-- `el.querySelector('span.cbg1qdk')`: the first strict-descendant
`span.cbg1qdk` in document order. -/
def firstSpanSel : Node → Option Node
  | .text _ => none
  | .elem _ _ _ cs => firstSpanSelL cs

/-- First `span.cbg1qdk` in a node list, in document order. -/
def firstSpanSelL : List Node → Option Node
  | [] => none
  | c :: cs =>
      if isSpanSel c then some c
      else
        match firstSpanSel c with
        | some r => some r
        | none => firstSpanSelL cs

end

/-- The symbol folding in `chordKey`: `ₘ`→`m`, `♭`→`b`, `♯`→`#`. -/
def chordKeyChar (c : Char) : Char :=
  if c = 'ₘ' then 'm' else if c = '♭' then 'b' else if c = '♯' then '#' else c

/-- `chordKey` from the script: normalized text of the block's first
`span.cbg1qdk`, whitespace stripped, symbols folded to ASCII. -/
def chordKey (n : Node) : String :=
  let t := normalize (match firstSpanSel n with | some s => textContent s | none => "")
  String.mk ((t.data.filter (fun c => !isWs c)).map chordKeyChar)

/-- Lexicographic `≤` on character lists. -/
def leChars : List Char → List Char → Bool
  | [], _ => true
  | _ :: _, [] => false
  | a :: as_, b :: bs => a < b || (a == b && leChars as_ bs)

/-- Case-folded lexicographic comparison of two strings; this models
`a.localeCompare(b, undefined, sensitivity: base) <= 0` on the ASCII chord
keys the script produces. -/
def leStr (s t : String) : Bool := leChars (lowerStr s).data (lowerStr t).data

/-- Comparator of `sortChordBlocks` on two blocks. -/
def keyLE (a b : Node) : Bool := leStr (chordKey a) (chordKey b)

/-- A tagged child, produced before any descendant is rearranged:
whether it is a sortable block, its chord key, and its recursively sorted
version. -/
abbrev Tagged := Bool × String × Node

/-- Stable insertion (after all entries with a `≤` key) into an
already-sorted list of tagged children. -/
def insertTagged (x : Tagged) : List Tagged → List Tagged
  | [] => [x]
  | y :: ys => if leStr y.2.1 x.2.1 then y :: insertTagged x ys else x :: y :: ys

/-- Stable sort of tagged children by chord key.  A stable sort's output is
uniquely determined by the comparator and the input order, so this computes
exactly the result of the (stable, per the ECMAScript specification)
`Array.prototype.sort` call in `sortChordBlocks`. -/
def sortTaggedList (l : List Tagged) : List Tagged :=
  l.foldl (fun acc x => insertTagged x acc) []

mutual

/-- The per-parent rearrangement of `sortChordBlocks`, applied recursively in
document order (each parent's group is sorted, using keys read from the
not-yet-rearranged subtrees, before any deeper parent's group is): the
sortable blocks among the children move, in key order, behind the other
children (`parent.appendChild` moves each to the end), and every child is
then processed recursively. -/
def sortNode : Node → Node
  | .text s => .text s
  | .elem t c a cs =>
      let tagged := sortTagL cs
      .elem t c a
        (((tagged.filter (fun e => !e.1)).map (fun e => e.2.2)) ++
          ((sortTaggedList (tagged.filter (fun e => e.1))).map (fun e => e.2.2)))

/-- Tag every child with its block status and key (computed before the
rearrangement) and its recursively sorted version. -/
def sortTagL : List Node → List Tagged
  | [] => []
  | x :: xs => (isSortBlock x, chordKey x, sortNode x) :: sortTagL xs

end

mutual

/-- Number of sortable blocks in a subtree (the node itself included). -/
def blocksInN : Node → Nat
  | .text _ => 0
  | .elem t c a cs =>
      (if isSortBlock (.elem t c a cs) then 1 else 0) + blocksInL cs

/-- Number of sortable blocks in a node list. -/
def blocksInL : List Node → Nat
  | [] => 0
  | c :: cs => blocksInN c + blocksInL cs

end

/-- `sortChordBlocks(document)` from the script: a no-op when fewer than two
sortable blocks exist in the document; otherwise each parent's blocks are
re-appended in key order.  The forest roots themselves have no parent
*element* (`parentElement` is null below the Document node), so top-level
order is untouched. -/
def sortChordBlocks (f : Forest) : Forest :=
  if blocksInL f < 2 then f else f.map sortNode

/-- Is a list of siblings' block sublist in nondecreasing key order? -/
def chainKeys : List Node → Bool
  | [] => true
  | [_] => true
  | a :: b :: t => keyLE a b && chainKeys (b :: t)

mutual

/-- Every element of the subtree has its sortable block children in
nondecreasing chord-key order. -/
def sortedDeepN : Node → Bool
  | .text _ => true
  | .elem _ _ _ cs => chainKeys (cs.filter isSortBlock) && sortedDeepL cs

/-- List version of `sortedDeepN`. -/
def sortedDeepL : List Node → Bool
  | [] => true
  | c :: cs => sortedDeepN c && sortedDeepL cs

end

/-- Every element of the document has its block children in key order. -/
def sortedDeepF (f : Forest) : Bool := sortedDeepL f

mutual

/-- No sortable block of the subtree has another sortable block strictly
inside it. -/
def noNestedN : Node → Bool
  | .text _ => true
  | .elem t c a cs =>
      (!isSortBlock (.elem t c a cs) || blocksInL cs == 0) && noNestedL cs

/-- List version of `noNestedN`. -/
def noNestedL : List Node → Bool
  | [] => true
  | c :: cs => noNestedN c && noNestedL cs

end

/-- No sortable block of the document is nested inside another. -/
def noNestedF (f : Forest) : Bool := noNestedL f

/-- Whether a node matches the click-candidate selector
`button, [role="button"], a`. -/
def isCandidate (n : Node) : Bool :=
  tagOf n == "button" ||
  (match attrOf n "role" with | some v => v == "button" | none => false) ||
  tagOf n == "a"

/-- Candidate positions, in document order. -/
def candPositions (f : Forest) : List Pos := posOfF isCandidate f

/-- Positions of `.view-diagrams` elements. -/
def viewDiagramsPositions (f : Forest) : List Pos :=
  posOfF (fun n => hasClass n "view-diagrams") f

/-- `onDiagramsPage` from the script:
`!!document.querySelector('.view-diagrams')`. -/
def onDiagramsPage (f : Forest) : Bool := !(viewDiagramsPositions f).isEmpty

/-- Truthiness of `el.dataset._clickedSummary` (the script only ever writes
the string "1" there). -/
def clickedSummaryMark (n : Node) : Bool :=
  match attrOf n "_clickedSummary" with
  | some v => v != ""
  | none => false

/-- The loop condition of `clickSummaryIfPresent` for one candidate:
nonempty normalized text matching `/^summary$/i`, not yet marked. -/
def clickPred (f : Forest) (p : Pos) : Bool :=
  match getF f p with
  | none => false
  | some n =>
      let txt := normalize (textContent n)
      txt != "" && lowerStr txt == "summary" && !clickedSummaryMark n

/-- Set (or overwrite) one attribute, keeping the rest. -/
def setAttr (attrs : List (String × String)) (k v : String) : List (String × String) :=
  match attrs with
  | [] => [(k, v)]
  | (k', v') :: rest => if k' == k then (k, v) :: rest else (k', v') :: setAttr rest k v

mutual

/-- Write `dataset._clickedSummary = '1'` on the node at a position. -/
def markN : Node → Pos → Node
  | .text s, _ => .text s
  | .elem t c a cs, [] => .elem t c (setAttr a "_clickedSummary" "1") cs
  | .elem t c a cs, i :: p => .elem t c a (markL cs i p)

/-- Mark inside the `i`-th entry of a node list. -/
def markL : List Node → Nat → Pos → List Node
  | [], _, _ => []
  | n :: ns, 0, p => markN n p :: ns
  | n :: ns, Nat.succ i, p => n :: markL ns i p

end

/-- Mark the element at a document position. -/
def markF (f : Forest) (p : Pos) : Forest :=
  match p with
  | [] => f
  | i :: p => markL f i p

/-- `clickSummaryIfPresent(document)` from the script: nothing happens
outside the Diagrams view; otherwise the first unmarked candidate labeled
"Summary" is marked and clicked (the loop then breaks).  The result is the
updated document together with the clicked position, if any; the `click()`
call itself is an event dispatch to the host page, outside this model. -/
def clickSummaryIfPresent (f : Forest) : Forest × Option Pos :=
  if !onDiagramsPage f then (f, none)
  else
    match (candPositions f).find? (clickPred f) with
    | some p => (markF f p, some p)
    | none => (f, none)

/-- A sequence of `n` consecutive `clickSummaryIfPresent` invocations,
collecting the clicked positions. -/
def clickSeq : Forest → Nat → Forest × List Pos
  | f, 0 => (f, [])
  | f, n + 1 =>
      let r := clickSummaryIfPresent f
      let rest := clickSeq r.1 n
      (rest.1, (match r.2 with | some p => [p] | none => []) ++ rest.2)

/-- State of the debounced sorter: `pending` is the `_sortPending` flag,
`queued` counts `setTimeout` callbacks scheduled but not yet run, `fired`
counts completed `sortChordBlocks` runs. -/
structure SortSched where
  pending : Bool
  queued : Nat
  fired : Nat

/-- The two events that drive the debouncer: a `queueSort()` call, and a
scheduled timeout callback running (which first clears `_sortPending`, then
sorts). -/
inductive SortEvent : Type where
  | queueSort : SortEvent
  | timerFire : SortEvent

/-- One debouncer transition.  `queueSort` returns immediately when a sort
is pending, otherwise sets the flag and schedules one callback; a timer can
only fire when a callback is actually scheduled, and then clears the flag
before performing the (counted) sort. -/
def sortSchedStep : SortSched → SortEvent → SortSched
  | s, .queueSort => if s.pending then s else ⟨true, s.queued + 1, s.fired⟩
  | s, .timerFire =>
      if s.queued == 0 then s else ⟨false, s.queued - 1, s.fired + 1⟩

/-- Run the debouncer from the initial state over an event trace. -/
def sortSchedRun (es : List SortEvent) : SortSched :=
  es.foldl sortSchedStep ⟨false, 0, 0⟩

/-- The `span.cbg1qdk` positions strictly inside the subtree at `p`, in
document order (`node.querySelectorAll('span.cbg1qdk')`). -/
def strictSpansUnder (f : Forest) (p : Pos) : List Pos :=
  (spanPositions f).filter (fun q => isPre p q && !(q == p))

/-- The `span.cbg1qdk` positions of the subtree at `p`, the node itself
included, in document order. -/
def spansUnderIncl (f : Forest) (p : Pos) : List Pos :=
  (spanPositions f).filter (fun q => isPre p q)

/-- The removal behavior of the MutationObserver callback for one added
element node at position `p` (the callback's `clickSummaryIfPresent(node)`
call touches no node's existence and is modelled separately): a node that is
itself a matching target span has its container removed directly; otherwise,
if matching spans exist deeper in its subtree, `purge(node)` runs. -/
def observerHandleAdded (f : Forest) (p : Pos) : Forest :=
  match getF f p with
  | none => f
  | some n =>
      if isSpanSel n && isTargetSpan n then
        match chordContainerFor f p with
        | none => f
        | some c =>
            match getF f c with
            | none => f
            | some cn => if isChordBlock cn then prune f [c] else f
      else
        if !(strictSpansUnder f p).isEmpty then
          prune f (purgeRemovalsOver f (strictSpansUnder f p))
        else f

/-- Purge run over the spans of the subtree at `p`, the node itself
included, containers still resolved against the whole document. -/
def purgeUnderIncl (f : Forest) (p : Pos) : Forest :=
  prune f (purgeRemovalsOver f (spansUnderIncl f p))

/-- The standalone tree consisting of the node at `p` and its subtree. -/
def subtreeForestAt (f : Forest) (p : Pos) : Forest :=
  match getF f p with
  | some n => [n]
  | none => []

mutual

/-- The subtree contains no element node at all. -/
def noElemsN : Node → Bool
  | .text _ => true
  | .elem _ _ _ _ => false

/-- The node list contains no element node. -/
def noElemsL : List Node → Bool
  | [] => true
  | c :: cs => noElemsN c && noElemsL cs

end

mutual

/-- Every `span.cbg1qdk` of the subtree has a flat body: no element nodes
below it (only text). -/
def flatSpansN : Node → Bool
  | .text _ => true
  | .elem t c a cs =>
      (!isSpanSel (.elem t c a cs) || noElemsL cs) && flatSpansL cs

/-- List version of `flatSpansN`. -/
def flatSpansL : List Node → Bool
  | [] => true
  | c :: cs => flatSpansN c && flatSpansL cs

end

/-- Every chord-label span of the document is flat. -/
def flatSpansF (f : Forest) : Bool := flatSpansL f

/-- What a span needs to know about one ancestor to resolve its container
and that container's guard: whether it is a `div.deu1fhf`, whether it is a
`div`, and whether it passes the chord-block guard. -/
structure AncInfo where
  isDeu : Bool
  isDivTag : Bool
  guardOk : Bool

/-- Resolve `closest('div.deu1fhf') || closest('div')` over recorded
ancestor info (nearest ancestor first). -/
def resolveContainer (anc : List AncInfo) : Option AncInfo :=
  match anc.find? (fun a => a.isDeu) with
  | some a => some a
  | none => anc.find? (fun a => a.isDivTag)

mutual

/-- Does the subtree contain a target `span.cbg1qdk` whose resolved
container passes the chord-block guard?  `anc` carries the info of the
ancestors above this subtree, nearest first. -/
def badSpanN (anc : List AncInfo) : Node → Bool
  | .text _ => false
  | .elem t c a cs =>
      (isSpanSel (.elem t c a cs) && isTargetSpan (.elem t c a cs) &&
        (match resolveContainer anc with | some i => i.guardOk | none => false)) ||
      badSpanL
        (⟨isDeuDiv (.elem t c a cs), isDiv (.elem t c a cs),
          isChordBlock (.elem t c a cs)⟩ :: anc) cs

/-- List version of `badSpanN`. -/
def badSpanL (anc : List AncInfo) : List Node → Bool
  | [] => false
  | x :: xs => badSpanN anc x || badSpanL anc xs

end

/-- Does the document contain a target span whose container passes the
guard (i.e. would another `purge` run still remove something)? -/
def badSpanF (f : Forest) : Bool := badSpanL [] f

mutual

/-- Two nodes are equal up to recursively permuting children: the
relation that holds between a document and the result of an operation that
moves elements around but never removes, creates, or reparents one. -/
inductive ReorderN : Node → Node → Prop where
  | text (s : String) : ReorderN (.text s) (.text s)
  | elem (t : String) (c : List String) (a : List (String × String))
      (cs ds : List Node) : ReorderL cs ds → ReorderN (.elem t c a cs) (.elem t c a ds)

/-- Permutation-up-to-`ReorderN` of child lists. -/
inductive ReorderL : List Node → List Node → Prop where
  | nil : ReorderL [] []
  | cons (x y : Node) (l l' : List Node) :
      ReorderN x y → ReorderL l l' → ReorderL (x :: l) (y :: l')
  | swap (x x' y y' : Node) (l l' : List Node) :
      ReorderN x x' → ReorderN y y' → ReorderL l l' →
      ReorderL (x :: y :: l) (y' :: x' :: l')
  | trans (l₁ l₂ l₃ : List Node) : ReorderL l₁ l₂ → ReorderL l₂ l₃ → ReorderL l₁ l₃

end

/-- Evaluate a node predicate at a document position (false when the
position does not exist). -/
def nodePred (f : Forest) (pred : Node → Bool) (q : Pos) : Bool :=
  match getF f q with
  | some n => pred n
  | none => false

/-- The ancestor information at position `a` of the document `prune f R`:
its `div.deu1fhf` / `div` status (pruning never changes an element's tag or
classes) and the chord-block guard of its pruned subtree. -/
def ancInfoAt (f : Forest) (R : List Pos) (a : Pos) : AncInfo :=
  ⟨nodePred f isDeuDiv a, nodePred f isDiv a,
   match getF f a with
   | some n => isChordBlock (pruneN R a n)
   | none => false⟩

/-- No position of the list sits strictly inside another (and the list also
has no duplicates counted at different spots — two occurrences of one
position are allowed to coincide). -/
def PairwiseNonNested (l : List Pos) : Prop :=
  ∀ c₁ ∈ l, ∀ c₂ ∈ l, isPre c₁ c₂ = true → c₁ = c₂

/-! Concrete documents used to evaluate the operations at specific inputs. -/

/-- A diagram `svg > use` pair as found inside every real chord block. -/
def svgUse : Node :=
  .elem "svg" [] []
    [.elem "use" [] [("href", "https://chordify.net/api/v2/diagrams/instruments/guitar#0")] []]

/-- A chord-label span with the given visible text. -/
def chordSpan (s : String) : Node := .elem "span" ["cbg1qdk"] [] [.text s]

/-- A chord block (`div.deu1fhf`) with the given children. -/
def chordBlockOf (cs : List Node) : Node := .elem "div" ["deu1fhf"] [] cs

/-- A document with one chord block nested inside another: the outer block
holds an inner block (span "B" over a diagram) and its own span "A". -/
def exNested : Forest :=
  [chordBlockOf [chordBlockOf [chordSpan "B", svgUse], chordSpan "A"]]

/-- A document whose outer block's first labelled span sits inside a nested
block, so that sorting the nested blocks changes the outer block's key. -/
def exKeyShift : Forest :=
  [.elem "div" [] []
    [chordBlockOf
      [chordBlockOf [chordSpan "Z", svgUse], chordBlockOf [chordSpan "A", svgUse]],
     chordBlockOf [chordSpan "M", svgUse]]]

/-- A single chord block whose label span is the freshly added node. -/
def exAddedSpan : Forest := [chordBlockOf [svgUse, chordSpan "A"]]

/-- A chord block whose label span has a nested block inside it, so that the
first purge changes the outer span's text. -/
def exSpanWithBlock : Forest :=
  [chordBlockOf [svgUse,
    .elem "span" ["cbg1qdk"] [] [.text "A", chordBlockOf [chordSpan "B", svgUse]]]]

/-- A Diagrams-view document with a Summary button and a Summary link. -/
def exClick : Forest :=
  [.elem "div" ["view-diagrams"] [] [],
   .elem "button" [] [] [.text " Summary "],
   .elem "a" [] [] [.text "Summary"]]

/-- A document none of the selectors match. -/
def exPlain : Forest := [.elem "p" [] [] [.text "hello"]]

/-- A flat document with one blocklisted block and one kept block. -/
def exPurgeOk : Forest :=
  [chordBlockOf [chordSpan "A", svgUse],
   chordBlockOf [chordSpan "X7", svgUse],
   .elem "p" [] [] [.text "hi"]]

/-- A flat document with two unsorted chord blocks under one parent. -/
def exSortOk : Forest :=
  [.elem "div" [] []
    [chordBlockOf [chordSpan "G", svgUse], chordBlockOf [chordSpan "C", svgUse]]]

/-! ### Position-prefix lemmas -/

theorem isPre_refl (p : Pos) : isPre p p = true := by
  induction p with
  | nil => rfl
  | cons a as ih => simp [isPre, ih]

theorem isPre_append (q s : Pos) : isPre q (q ++ s) = true := by
  induction q with
  | nil => rfl
  | cons a as ih => simp [isPre, ih]

theorem eq_append_of_isPre : ∀ {q p : Pos}, isPre q p = true → ∃ s, p = q ++ s := by
  intro q
  induction q with
  | nil => exact fun {p} _ => ⟨p, rfl⟩
  | cons a as ih =>
    intro p h
    cases p with
    | nil => simp [isPre] at h
    | cons b bs =>
      simp [isPre] at h
      obtain ⟨rfl, h2⟩ := h
      obtain ⟨s, rfl⟩ := ih h2
      exact ⟨s, rfl⟩

theorem isPre_trans {a b c : Pos} (h1 : isPre a b = true) (h2 : isPre b c = true) :
    isPre a c = true := by
  obtain ⟨s, rfl⟩ := eq_append_of_isPre h1
  obtain ⟨t, rfl⟩ := eq_append_of_isPre h2
  rw [List.append_assoc]
  exact isPre_append _ _

theorem isPre_antisymm {a b : Pos} (h1 : isPre a b = true) (h2 : isPre b a = true) :
    a = b := by
  obtain ⟨s, rfl⟩ := eq_append_of_isPre h1
  obtain ⟨t, ht⟩ := eq_append_of_isPre h2
  have hl := congrArg List.length ht
  simp only [List.length_append] at hl
  have hs : s.length = 0 := by omega
  rw [List.length_eq_zero] at hs
  subst hs
  simp

theorem isPre_nil_right : ∀ {p : Pos}, isPre p [] = true → p = [] := by
  intro p h
  cases p with
  | nil => rfl
  | cons a as => simp [isPre] at h

theorem isPre_comparable {p : Pos} :
    ∀ {r c : Pos}, isPre r p = true → isPre c p = true →
      isPre r c = true ∨ isPre c r = true := by
  induction p with
  | nil =>
    intro r c h1 _
    rw [isPre_nil_right h1]
    exact Or.inl rfl
  | cons b bs ih =>
    intro r c h1 h2
    cases r with
    | nil => exact Or.inl rfl
    | cons x xs =>
      cases c with
      | nil => exact Or.inr rfl
      | cons y ys =>
        simp [isPre] at h1 h2 ⊢
        obtain ⟨rfl, h1⟩ := h1
        obtain ⟨rfl, h2⟩ := h2
        rcases ih h1 h2 with h | h
        · exact Or.inl ⟨rfl, h⟩
        · exact Or.inr ⟨rfl, h⟩

theorem isPre_take (p : Pos) (k : Nat) : isPre (p.take k) p = true := by
  have h := isPre_append (p.take k) (p.drop k)
  rwa [List.take_append_drop] at h

theorem isPre_snoc_same (q : Pos) (i : Nat) : isPre q (q ++ [i]) = true :=
  isPre_append q [i]

/-! ### Liveness lemmas -/

theorem live_iff {R : List Pos} {p : Pos} :
    live R p = true ↔ ∀ r ∈ R, isPre r p = false := by
  simp [live, List.all_eq_true]

theorem live_nil (p : Pos) : live [] p = true := rfl

theorem live_append {R : List Pos} {c p : Pos} :
    live (R ++ [c]) p = (live R p && !(isPre c p)) := by
  simp [live, List.all_append]

theorem live_of_sub {R R' : List Pos} (h : ∀ r ∈ R, r ∈ R') {p : Pos}
    (hl : live R' p = true) : live R p = true := by
  rw [live_iff] at hl ⊢
  exact fun r hr => hl r (h r hr)

theorem live_anc {R : List Pos} {p q : Pos} (hl : live R p = true)
    (hq : isPre q p = true) : live R q = true := by
  rw [live_iff] at hl ⊢
  intro r hr
  cases hrq : isPre r q with
  | false => rfl
  | true =>
    have := isPre_trans hrq hq
    have h2 := hl r hr
    rw [this] at h2
    exact h2

theorem not_live_iff {R : List Pos} {p : Pos} :
    live R p = false ↔ ∃ r ∈ R, isPre r p = true := by
  constructor
  · intro h
    by_contra hn
    push_neg at hn
    have hlive : live R p = true := by
      rw [live_iff]
      intro r hr
      cases hrp : isPre r p with
      | false => rfl
      | true => exact absurd hrp (hn r hr)
    rw [hlive] at h
    cases h
  · rintro ⟨r, hr, hrp⟩
    cases h : live R p with
    | false => rfl
    | true =>
      have := live_iff.mp h r hr
      rw [hrp] at this
      cases this

/-! ### Pruning lemmas -/

mutual

theorem pruneN_nilR (q : Pos) : ∀ n : Node, pruneN [] q n = n
  | .text s => rfl
  | .elem t c a cs => by
      rw [pruneN, pruneL_nilR q 0 cs]

theorem pruneL_nilR (q : Pos) (i : Nat) : ∀ ns : List Node, pruneL [] q i ns = ns
  | [] => rfl
  | n :: ns => by
      rw [pruneL, live_nil, pruneN_nilR (q ++ [i]) n, pruneL_nilR q (i + 1) ns]
      simp

end

theorem prune_nilR (f : Forest) : prune f [] = f := pruneL_nilR [] 0 f

theorem pruneL_cons_live {R : List Pos} {q : Pos} {i : Nat} {n : Node} {ns : List Node}
    (h : live R (q ++ [i]) = true) :
    pruneL R q i (n :: ns) = pruneN R (q ++ [i]) n :: pruneL R q (i + 1) ns := by
  rw [pruneL, h]
  simp

theorem pruneL_cons_dead {R : List Pos} {q : Pos} {i : Nat} {n : Node} {ns : List Node}
    (h : live R (q ++ [i]) = false) :
    pruneL R q i (n :: ns) = pruneL R q (i + 1) ns := by
  rw [pruneL, h]
  simp

theorem live_congr {R R' : List Pos} (h : ∀ r, r ∈ R ↔ r ∈ R') (p : Pos) :
    live R p = live R' p := by
  cases hl : live R' p with
  | true =>
    exact live_of_sub (fun r hr => (h r).mp hr) hl
  | false =>
    cases hl2 : live R p with
    | false => rfl
    | true =>
      have := live_of_sub (fun r hr => (h r).mpr hr) hl2
      rw [this] at hl
      cases hl

mutual

theorem pruneN_congr {R R' : List Pos} (h : ∀ r, r ∈ R ↔ r ∈ R') (q : Pos) :
    ∀ n : Node, pruneN R q n = pruneN R' q n
  | .text s => rfl
  | .elem t c a cs => by
      rw [pruneN, pruneN, pruneL_congr h q 0 cs]

theorem pruneL_congr {R R' : List Pos} (h : ∀ r, r ∈ R ↔ r ∈ R') (q : Pos) (i : Nat) :
    ∀ ns : List Node, pruneL R q i ns = pruneL R' q i ns
  | [] => rfl
  | n :: ns => by
      rw [pruneL, pruneL, live_congr h (q ++ [i]), pruneN_congr h (q ++ [i]) n,
        pruneL_congr h q (i + 1) ns]

end

theorem prune_congr {R R' : List Pos} (h : ∀ r, r ∈ R ↔ r ∈ R') (f : Forest) :
    prune f R = prune f R' := pruneL_congr h [] 0 f

/-- The hypothesis of the untouched-subtree lemma: no removed root is
above-or-at `q`, none is below-or-at `q`. -/
def Untouched (R : List Pos) (q : Pos) : Prop :=
  ∀ r ∈ R, isPre r q = false ∧ isPre q r = false

theorem untouched_child {R : List Pos} {q : Pos} (h : Untouched R q) (i : Nat) :
    Untouched R (q ++ [i]) := by
  intro r hr
  obtain ⟨h1, h2⟩ := h r hr
  constructor
  · cases hpc : isPre r (q ++ [i]) with
    | false => rfl
    | true =>
      rcases isPre_comparable hpc (isPre_snoc_same q i) with hc | hc
      · rw [hc] at h1; cases h1
      · rw [hc] at h2; cases h2
  · cases hpc : isPre (q ++ [i]) r with
    | false => rfl
    | true =>
      have := isPre_trans (isPre_snoc_same q i) hpc
      rw [this] at h2
      cases h2

theorem live_of_untouched {R : List Pos} {q : Pos} (h : Untouched R q) (i : Nat) :
    live R (q ++ [i]) = true := by
  rw [live_iff]
  intro r hr
  exact (untouched_child h i r hr).1

mutual

theorem pruneN_untouched {R : List Pos} :
    ∀ (n : Node) (q : Pos), Untouched R q → pruneN R q n = n
  | .text s, _, _ => rfl
  | .elem t c a cs, q, h => by
      rw [pruneN, pruneL_untouched cs q 0 h]

theorem pruneL_untouched {R : List Pos} :
    ∀ (ns : List Node) (q : Pos) (i : Nat), Untouched R q → pruneL R q i ns = ns
  | [], _, _, _ => rfl
  | n :: ns, q, i, h => by
      rw [pruneL, live_of_untouched h i,
        pruneN_untouched n (q ++ [i]) (untouched_child h i),
        pruneL_untouched ns q (i + 1) h]
      simp

end

/-! ### Chord-block guard monotonicity under pruning -/

theorem hasDiagramUseList_append (b : Bool) (l₁ l₂ : List Node) :
    hasDiagramUseList b (l₁ ++ l₂) =
      (hasDiagramUseList b l₁ || hasDiagramUseList b l₂) := by
  induction l₁ with
  | nil => simp [hasDiagramUseList]
  | cons c cs ih => simp [hasDiagramUseList, ih, Bool.or_assoc]

mutual

theorem hasUse_pruneN_mono {R R' : List Pos} (hsub : ∀ r ∈ R, r ∈ R') :
    ∀ (n : Node) (q : Pos) (b : Bool),
      hasDiagramUse b (pruneN R' q n) = true → hasDiagramUse b (pruneN R q n) = true
  | .text _, _, _, h => h
  | .elem t c a cs, q, b, h => by
      rw [pruneN] at h ⊢
      simp only [hasDiagramUse, Bool.or_eq_true] at h ⊢
      rcases h with h | h
      · exact Or.inl h
      · exact Or.inr (hasUse_pruneL_mono hsub cs q 0 _ h)

theorem hasUse_pruneL_mono {R R' : List Pos} (hsub : ∀ r ∈ R, r ∈ R') :
    ∀ (ns : List Node) (q : Pos) (i : Nat) (b : Bool),
      hasDiagramUseList b (pruneL R' q i ns) = true →
        hasDiagramUseList b (pruneL R q i ns) = true
  | [], _, _, _, h => h
  | n :: ns, q, i, b, h => by
      cases hl' : live R' (q ++ [i]) with
      | true =>
        rw [pruneL_cons_live hl'] at h
        rw [pruneL_cons_live (live_of_sub hsub hl')]
        simp only [hasDiagramUseList, Bool.or_eq_true] at h ⊢
        rcases h with h | h
        · exact Or.inl (hasUse_pruneN_mono hsub n (q ++ [i]) b h)
        · exact Or.inr (hasUse_pruneL_mono hsub ns q (i + 1) b h)
      | false =>
        rw [pruneL_cons_dead hl'] at h
        have htail := hasUse_pruneL_mono hsub ns q (i + 1) b h
        cases hl : live R (q ++ [i]) with
        | true =>
          rw [pruneL_cons_live hl]
          simp only [hasDiagramUseList, Bool.or_eq_true]
          exact Or.inr htail
        | false =>
          rw [pruneL_cons_dead hl]
          exact htail

end

theorem isChordBlock_pruneN_mono {R R' : List Pos} (hsub : ∀ r ∈ R, r ∈ R')
    {n : Node} {q : Pos} (h : isChordBlock (pruneN R' q n) = true) :
    isChordBlock (pruneN R q n) = true := by
  cases n with
  | text s => exact h
  | elem t c a cs =>
    rw [pruneN] at h ⊢
    rw [isChordBlock] at h ⊢
    exact hasUse_pruneL_mono hsub cs q 0 _ h

theorem isChordBlock_of_pruneN {R : List Pos} {n : Node} {q : Pos}
    (h : isChordBlock (pruneN R q n) = true) : isChordBlock n = true := by
  have := @isChordBlock_pruneN_mono [] R (fun r hr => by cases hr) n q h
  rwa [pruneN_nilR] at this

/-! ### Shell preservation under pruning -/

theorem tagOf_pruneN (R : List Pos) (q : Pos) (n : Node) :
    tagOf (pruneN R q n) = tagOf n := by
  cases n <;> rfl

theorem hasClass_pruneN (R : List Pos) (q : Pos) (n : Node) (cl : String) :
    hasClass (pruneN R q n) cl = hasClass n cl := by
  cases n <;> rfl

theorem isSpanSel_pruneN (R : List Pos) (q : Pos) (n : Node) :
    isSpanSel (pruneN R q n) = isSpanSel n := by
  cases n <;> rfl

theorem isDeuDiv_pruneN (R : List Pos) (q : Pos) (n : Node) :
    isDeuDiv (pruneN R q n) = isDeuDiv n := by
  cases n <;> rfl

theorem isDiv_pruneN (R : List Pos) (q : Pos) (n : Node) :
    isDiv (pruneN R q n) = isDiv n := by
  cases n <;> rfl

/-! ### Lookup lemmas -/

theorem getN_append (p : Pos) :
    ∀ (n : Node) (p' : Pos),
      getN n (p ++ p') = (getN n p).bind (fun m => getN m p') := by
  induction p with
  | nil => intro n p'; cases n <;> simp [getN]
  | cons i p ih =>
    intro n p'
    cases n with
    | text s => simp [getN]
    | elem t c a cs =>
      simp only [List.cons_append, getN]
      cases cs[i]? with
      | none => rfl
      | some m => exact ih m p'

theorem getF_cons (f : Forest) (i : Nat) (p : Pos) :
    getF f (i :: p) = (f[i]?).bind (fun c => getN c p) := by
  rw [getF]
  cases f[i]? <;> rfl

theorem getF_append (f : Forest) (i : Nat) (p p' : Pos) :
    getF f ((i :: p) ++ p') = (getF f (i :: p)).bind (fun m => getN m p') := by
  rw [List.cons_append, getF_cons, getF_cons]
  cases f[i]? with
  | none => rfl
  | some c => exact getN_append p c p'

theorem getF_ne_nil {f : Forest} {p : Pos} {n : Node} (h : getF f p = some n) :
    p ≠ [] := by
  intro hp
  rw [hp] at h
  cases h

theorem getF_snoc (f : Forest) (q : Pos) (j : Nat) :
    getF f (q ++ [j]) =
      (match q with
       | [] => f[j]?
       | i :: p => (getF f (i :: p)).bind (fun m => getN m [j])) := by
  cases q with
  | nil =>
    simp only [List.nil_append, getF_cons]
    cases f[j]? with
    | none => rfl
    | some val => cases val <;> rfl
  | cons i p => exact getF_append f i p [j]

/-! ### Traversal characterization -/

theorem posOfL_sub {pred : Node → Bool} {q : Pos} :
    ∀ (ns : List Node) (i k : Nat) (c : Node), ns[k]? = some c →
      ∀ x ∈ posOfN pred (q ++ [i + k]) c, x ∈ posOfL pred q i ns := by
  intro ns
  induction ns with
  | nil => intro i k c h; cases h
  | cons c₀ ns ih =>
    intro i k c h x hx
    rw [posOfL, List.mem_append]
    cases k with
    | zero =>
      simp only [List.getElem?_cons_zero, Option.some.injEq] at h
      subst h
      exact Or.inl hx
    | succ k =>
      simp only [List.getElem?_cons_succ] at h
      have : i + (k + 1) = (i + 1) + k := by omega
      rw [this] at hx
      exact Or.inr (ih (i + 1) k c h x hx)

theorem mem_posOfN_of_getN {pred : Node → Bool}
    (htext : ∀ s, pred (.text s) = false) :
    ∀ (s : Pos) (n : Node) (q : Pos) (m : Node),
      getN n s = some m → pred m = true → (q ++ s) ∈ posOfN pred q n := by
  intro s
  induction s with
  | nil =>
    intro n q m hg hp
    rw [getN] at hg
    cases hg
    cases n with
    | text str => rw [htext] at hp; cases hp
    | elem t c a cs =>
      rw [posOfN, hp]
      simp
  | cons j s ih =>
    intro n q m hg hp
    cases n with
    | text str => cases hg
    | elem t c a cs =>
      rw [getN] at hg
      cases hc : cs[j]? with
      | none => rw [hc] at hg; cases hg
      | some child =>
        rw [hc] at hg
        have hmem := ih child (q ++ [j]) m hg hp
        rw [posOfN, List.mem_append]
        refine Or.inr ?_
        have hmem' : ((q ++ [j]) ++ s) ∈ posOfN pred (q ++ [0 + j]) child := by
          rw [Nat.zero_add]
          exact hmem
        have hres := @posOfL_sub pred q cs 0 j child hc
          ((q ++ [j]) ++ s) hmem'
        have hx : q ++ (j :: s) = (q ++ [j]) ++ s := by simp
        rw [hx]
        exact hres

theorem mem_posOfF_of_getF {pred : Node → Bool}
    (htext : ∀ s, pred (.text s) = false)
    {f : Forest} {p : Pos} {m : Node}
    (hg : getF f p = some m) (hp : pred m = true) : p ∈ posOfF pred f := by
  cases p with
  | nil => cases hg
  | cons i s =>
    rw [getF_cons] at hg
    cases hc : f[i]? with
    | none => rw [hc] at hg; cases hg
    | some c =>
      rw [hc] at hg
      simp only [Option.some_bind] at hg
      have hmem := mem_posOfN_of_getN htext s c [i] m hg hp
      rw [posOfF]
      have hmem' : ([i] ++ s) ∈ posOfN pred ([] ++ [0 + i]) c := by
        simpa using hmem
      have hres := @posOfL_sub pred [] f 0 i c hc ([i] ++ s) hmem'
      simpa using hres

mutual

theorem getN_of_mem_posOfN {pred : Node → Bool} :
    ∀ (n : Node) (q x : Pos), x ∈ posOfN pred q n →
      ∃ s m, x = q ++ s ∧ getN n s = some m ∧ pred m = true
  | .text _, _, _, h => by cases h
  | .elem t c a cs, q, x, h => by
      rw [posOfN, List.mem_append] at h
      rcases h with h | h
      · refine ⟨[], .elem t c a cs, ?_, rfl, ?_⟩
        · cases hp : pred (.elem t c a cs) with
          | true => rw [hp] at h; simpa using h
          | false => rw [hp] at h; simp at h
        · cases hp : pred (.elem t c a cs) with
          | true => rfl
          | false => rw [hp] at h; simp at h
      · obtain ⟨k, child, s, m, hk, hx, hg, hp⟩ := getN_of_mem_posOfL cs q 0 x h
        refine ⟨k :: s, m, ?_, ?_, hp⟩
        · simpa using hx
        · rw [getN, hk]
          exact hg

theorem getN_of_mem_posOfL {pred : Node → Bool} :
    ∀ (ns : List Node) (q : Pos) (i : Nat) (x : Pos), x ∈ posOfL pred q i ns →
      ∃ k child s m, ns[k]? = some child ∧ x = q ++ [i + k] ++ s ∧
        getN child s = some m ∧ pred m = true
  | [], _, _, _, h => by cases h
  | c₀ :: ns, q, i, x, h => by
      rw [posOfL, List.mem_append] at h
      rcases h with h | h
      · obtain ⟨s, m, hx, hg, hp⟩ := getN_of_mem_posOfN c₀ (q ++ [i]) x h
        exact ⟨0, c₀, s, m, by simp, by simpa using hx, hg, hp⟩
      · obtain ⟨k, child, s, m, hk, hx, hg, hp⟩ := getN_of_mem_posOfL ns q (i + 1) x h
        refine ⟨k + 1, child, s, m, by simpa using hk, ?_, hg, hp⟩
        rw [hx]
        have : i + 1 + k = i + (k + 1) := by omega
        rw [this]

end

theorem getF_of_mem_posOfF {pred : Node → Bool} {f : Forest} {x : Pos}
    (h : x ∈ posOfF pred f) :
    ∃ m, getF f x = some m ∧ pred m = true := by
  rw [posOfF] at h
  obtain ⟨k, child, s, m, hk, hx, hg, hp⟩ := getN_of_mem_posOfL f [] 0 x h
  refine ⟨m, ?_, hp⟩
  have hx' : x = k :: s := by
    rw [hx]
    simp
  rw [hx', getF_cons, hk]
  simpa using hg

mutual

theorem blocksInN_of_no_deuDiv :
    ∀ (n : Node) (q : Pos), posOfN isDeuDiv q n = [] → blocksInN n = 0
  | .text _, _, _ => rfl
  | .elem t c a cs, q, h => by
      rw [posOfN] at h
      rw [List.append_eq_nil] at h
      obtain ⟨h1, h2⟩ := h
      rw [blocksInN]
      have hdd : isDeuDiv (.elem t c a cs) = false := by
        cases hd : isDeuDiv (.elem t c a cs) with
        | false => rfl
        | true => rw [hd] at h1; simp at h1
      have : isSortBlock (.elem t c a cs) = false := by
        rw [isSortBlock, hdd]
        rfl
      rw [this, if_neg Bool.false_ne_true, Nat.zero_add]
      exact blocksInL_of_no_deuDiv cs q 0 h2

theorem blocksInL_of_no_deuDiv :
    ∀ (ns : List Node) (q : Pos) (i : Nat), posOfL isDeuDiv q i ns = [] → blocksInL ns = 0
  | [], _, _, _ => rfl
  | n :: ns, q, i, h => by
      rw [posOfL] at h
      rw [List.append_eq_nil] at h
      obtain ⟨h1, h2⟩ := h
      rw [blocksInL, blocksInN_of_no_deuDiv n (q ++ [i]) h1,
        blocksInL_of_no_deuDiv ns q (i + 1) h2]

end

/-! ### find? helper -/

theorem find?_split {α : Type} (p : α → Bool) :
    ∀ (l : List α) (a : α), l.find? p = some a →
      ∃ l₁ l₂, l = l₁ ++ a :: l₂ ∧ ∀ x ∈ l₁, p x = false := by
  intro l
  induction l with
  | nil => intro a h; cases h
  | cons x xs ih =>
    intro a h
    rw [List.find?_cons] at h
    cases hp : p x with
    | true =>
      rw [hp] at h
      simp only [cond_true, Option.some.injEq] at h
      subst h
      exact ⟨[], xs, rfl, by simp⟩
    | false =>
      rw [hp] at h
      simp only [cond_false] at h
      obtain ⟨l₁, l₂, rfl, hl₁⟩ := ih a h
      refine ⟨x :: l₁, l₂, rfl, ?_⟩
      intro y hy
      rcases List.mem_cons.mp hy with rfl | hy
      · exact hp
      · exact hl₁ y hy

/-! ### Container lemmas -/

theorem isDiv_of_isDeuDiv {n : Node} (h : isDeuDiv n = true) : isDiv n = true := by
  rw [isDeuDiv, Bool.and_eq_true] at h
  exact h.1

theorem mem_ancPrefixes {p x : Pos} (h : x ∈ ancPrefixes p) :
    isPre x p = true ∧ x ≠ [] := by
  rw [ancPrefixes, List.mem_map] at h
  obtain ⟨k, hk, rfl⟩ := h
  rw [List.mem_reverse, List.mem_range] at hk
  refine ⟨isPre_take p (k + 1), ?_⟩
  intro hnil
  have hlen := congrArg List.length hnil
  rw [List.length_take] at hlen
  simp only [List.length_nil] at hlen
  omega

theorem chordContainerFor_isPre {f : Forest} {p c : Pos}
    (h : chordContainerFor f p = some c) : isPre c p = true := by
  rw [chordContainerFor] at h
  cases h1 : (ancPrefixes p).find? (fun q =>
      match getF f q with | some n => isDeuDiv n | none => false) with
  | some q =>
    rw [h1] at h
    cases h
    exact (mem_ancPrefixes (List.mem_of_find?_eq_some h1)).1
  | none =>
    rw [h1] at h
    exact (mem_ancPrefixes (List.mem_of_find?_eq_some h)).1

theorem chordContainerFor_div {f : Forest} {p c : Pos}
    (h : chordContainerFor f p = some c) :
    ∃ cn, getF f c = some cn ∧ isDiv cn = true := by
  rw [chordContainerFor] at h
  cases h1 : (ancPrefixes p).find? (fun q =>
      match getF f q with | some n => isDeuDiv n | none => false) with
  | some q =>
    rw [h1] at h
    cases h
    have hp := List.find?_some h1
    cases hg : getF f c with
    | none => rw [hg] at hp; cases hp
    | some cn =>
      rw [hg] at hp
      exact ⟨cn, rfl, isDiv_of_isDeuDiv hp⟩
  | none =>
    rw [h1] at h
    have hp := List.find?_some h
    cases hg : getF f c with
    | none => rw [hg] at hp; cases hp
    | some cn =>
      rw [hg] at hp
      exact ⟨cn, rfl, hp⟩

/-! ### Purge fold lemmas -/

theorem purgeStep_eq_of_getF_none {f : Forest} {R : List Pos} {p : Pos}
    (hn : getF f p = none) : purgeStep f R p = R := by
  simp [purgeStep, hn]

theorem purgeStep_eq_of_dead {f : Forest} {R : List Pos} {p : Pos} {n : Node}
    (hn : getF f p = some n) (hlv : live R p = false) : purgeStep f R p = R := by
  simp [purgeStep, hn, hlv]

theorem purgeStep_eq_of_not_target {f : Forest} {R : List Pos} {p : Pos} {n : Node}
    (hn : getF f p = some n) (ht : isTargetSpan n = false) : purgeStep f R p = R := by
  simp [purgeStep, hn, ht]

theorem purgeStep_eq_of_no_container {f : Forest} {R : List Pos} {p : Pos} {n : Node}
    (hn : getF f p = some n) (hc : chordContainerFor f p = none) :
    purgeStep f R p = R := by
  simp [purgeStep, hn, hc]

theorem purgeStep_eq_of_no_cnode {f : Forest} {R : List Pos} {p : Pos} {n : Node}
    {c : Pos} (hn : getF f p = some n) (hc : chordContainerFor f p = some c)
    (hcn : getF f c = none) : purgeStep f R p = R := by
  simp [purgeStep, hn, hc, hcn]

theorem purgeStep_eq_of_guard_false {f : Forest} {R : List Pos} {p : Pos} {n : Node}
    {c : Pos} {cn : Node} (hn : getF f p = some n) (hc : chordContainerFor f p = some c)
    (hcn : getF f c = some cn) (hg : isChordBlock (pruneN R c cn) = false) :
    purgeStep f R p = R := by
  simp [purgeStep, hn, hc, hcn, hg]

theorem purgeStep_fire {f : Forest} {R : List Pos} {p : Pos} {n : Node}
    {c : Pos} {cn : Node} (hn : getF f p = some n) (hlv : live R p = true)
    (ht : isTargetSpan n = true) (hc : chordContainerFor f p = some c)
    (hcn : getF f c = some cn) (hg : isChordBlock (pruneN R c cn) = true) :
    purgeStep f R p = R ++ [c] := by
  simp [purgeStep, hn, hlv, ht, hc, hcn, hg]

theorem mem_purgeStep_of_mem {f : Forest} {R : List Pos} {p x : Pos}
    (h : x ∈ R) : x ∈ purgeStep f R p := by
  cases hn : getF f p with
  | none => rw [purgeStep_eq_of_getF_none hn]; exact h
  | some n =>
    cases hlv : live R p with
    | false => rw [purgeStep_eq_of_dead hn hlv]; exact h
    | true =>
      cases ht : isTargetSpan n with
      | false => rw [purgeStep_eq_of_not_target hn ht]; exact h
      | true =>
        cases hc : chordContainerFor f p with
        | none => rw [purgeStep_eq_of_no_container hn hc]; exact h
        | some c =>
          cases hcn : getF f c with
          | none => rw [purgeStep_eq_of_no_cnode hn hc hcn]; exact h
          | some cn =>
            cases hg : isChordBlock (pruneN R c cn) with
            | false => rw [purgeStep_eq_of_guard_false hn hc hcn hg]; exact h
            | true =>
              rw [purgeStep_fire hn hlv ht hc hcn hg]
              exact List.mem_append_left _ h

theorem mem_foldl_purgeStep_of_mem (f : Forest) :
    ∀ (l : List Pos) (acc : List Pos) (x : Pos), x ∈ acc →
      x ∈ l.foldl (purgeStep f) acc := by
  intro l
  induction l with
  | nil => intro acc x h; exact h
  | cons p l ih =>
    intro acc x h
    exact ih _ x (mem_purgeStep_of_mem h)

/-- During `purge`'s loop, a span that stays attached to the very end was
never acted on with a passing guard: at the end of the loop, its container's
guard is false. -/
theorem fold_guard_false (f : Forest) :
    ∀ (l : List Pos) (acc : List Pos) (p : Pos), p ∈ l →
      live (l.foldl (purgeStep f) acc) p = true →
      ∀ {n : Node}, getF f p = some n → isTargetSpan n = true →
      ∀ {c : Pos}, chordContainerFor f p = some c →
      ∀ {cn : Node}, getF f c = some cn →
      isChordBlock (pruneN (l.foldl (purgeStep f) acc) c cn) = false := by
  intro l
  induction l with
  | nil => intro acc p hp; cases hp
  | cons p₀ l ih =>
    intro acc p hp hl n hn ht c hc cn hcn
    rw [List.foldl_cons] at hl ⊢
    rcases List.mem_cons.mp hp with rfl | hp
    · -- the span is the one being processed first
      have hsubF : ∀ x ∈ purgeStep f acc p, x ∈ l.foldl (purgeStep f) (purgeStep f acc p) :=
        fun x hx => mem_foldl_purgeStep_of_mem f l _ x hx
      have hsubA : ∀ x ∈ acc, x ∈ l.foldl (purgeStep f) (purgeStep f acc p) :=
        fun x hx => hsubF x (mem_purgeStep_of_mem hx)
      have hliveA : live acc p = true :=
        live_of_sub (fun x hx => hsubA x hx) hl
      -- the step at p itself: its guard must have been false
      have hgacc : isChordBlock (pruneN acc c cn) = false := by
        cases hg : isChordBlock (pruneN acc c cn) with
        | false => rfl
        | true =>
          -- the step fired and removed c, an ancestor of p: p would be dead
          have hstep : purgeStep f acc p = acc ++ [c] :=
            purgeStep_fire hn hliveA ht hc hcn hg
          have hcF : c ∈ l.foldl (purgeStep f) (purgeStep f acc p) := by
            apply hsubF
            rw [hstep]
            simp
          have := live_iff.mp hl c hcF
          rw [chordContainerFor_isPre hc] at this
          cases this
      cases hg : isChordBlock (pruneN (l.foldl (purgeStep f) (purgeStep f acc p)) c cn) with
      | false => rfl
      | true =>
        have := isChordBlock_pruneN_mono (fun x hx => hsubA x hx) hg
        rw [hgacc] at this
        cases this
    · exact ih (purgeStep f acc p₀) p hp hl hn ht hc hcn

/-! ### Specification-side contribution lemmas -/

theorem specContrib_eq_of_getF_none {f : Forest} {p : Pos}
    (hn : getF f p = none) : specContrib f p = none := by
  simp [specContrib, hn]

theorem specContrib_eq_of_not_target {f : Forest} {p : Pos} {n : Node}
    (hn : getF f p = some n) (ht : isTargetSpan n = false) : specContrib f p = none := by
  simp [specContrib, hn, ht]

theorem specContrib_eq_of_no_container {f : Forest} {p : Pos} {n : Node}
    (hn : getF f p = some n) (hc : chordContainerFor f p = none) :
    specContrib f p = none := by
  simp [specContrib, hn, hc]

theorem specContrib_eq_of_no_cnode {f : Forest} {p : Pos} {n : Node} {c : Pos}
    (hn : getF f p = some n) (hc : chordContainerFor f p = some c)
    (hcn : getF f c = none) : specContrib f p = none := by
  simp [specContrib, hn, hc, hcn]

theorem specContrib_eq_of_guard_false {f : Forest} {p : Pos} {n : Node} {c : Pos}
    {cn : Node} (hn : getF f p = some n) (hc : chordContainerFor f p = some c)
    (hcn : getF f c = some cn) (hg : isChordBlock cn = false) :
    specContrib f p = none := by
  simp [specContrib, hn, hc, hcn, hg]

theorem specContrib_eq_some {f : Forest} {p : Pos} {n : Node} {c : Pos} {cn : Node}
    (hn : getF f p = some n) (ht : isTargetSpan n = true)
    (hc : chordContainerFor f p = some c) (hcn : getF f c = some cn)
    (hg : isChordBlock cn = true) : specContrib f p = some c := by
  simp [specContrib, hn, ht, hc, hcn, hg]

theorem mem_specContainers {f : Forest} {p c : Pos}
    (hp : p ∈ spanPositions f) (hc : specContrib f p = some c) :
    c ∈ specContainers f :=
  List.mem_filterMap.mpr ⟨p, hp, hc⟩

/-! ### The operational purge against the specification's removal set -/

theorem purgeStep_mem_spec {f : Forest} (hpn : PairwiseNonNested (specContainers f))
    {p : Pos} (hp : p ∈ spanPositions f) {acc : List Pos}
    (hacc : ∀ x ∈ acc, x ∈ specContainers f) (x : Pos) :
    x ∈ purgeStep f acc p ↔ (x ∈ acc ∨ specContrib f p = some x) := by
  cases hn : getF f p with
  | none =>
    rw [purgeStep_eq_of_getF_none hn, specContrib_eq_of_getF_none hn]
    simp
  | some n =>
    cases ht : isTargetSpan n with
    | false =>
      rw [purgeStep_eq_of_not_target hn ht, specContrib_eq_of_not_target hn ht]
      simp
    | true =>
      cases hc : chordContainerFor f p with
      | none =>
        rw [purgeStep_eq_of_no_container hn hc, specContrib_eq_of_no_container hn hc]
        simp
      | some c =>
        cases hcn : getF f c with
        | none =>
          rw [purgeStep_eq_of_no_cnode hn hc hcn, specContrib_eq_of_no_cnode hn hc hcn]
          simp
        | some cn =>
          cases hgo : isChordBlock cn with
          | false =>
            have hg : isChordBlock (pruneN acc c cn) = false := by
              cases hg : isChordBlock (pruneN acc c cn) with
              | false => rfl
              | true =>
                have := isChordBlock_of_pruneN hg
                rw [hgo] at this
                cases this
            rw [purgeStep_eq_of_guard_false hn hc hcn hg,
              specContrib_eq_of_guard_false hn hc hcn hgo]
            simp
          | true =>
            have hspec : specContrib f p = some c :=
              specContrib_eq_some hn ht hc hcn hgo
            have hcmem : c ∈ specContainers f := mem_specContainers hp hspec
            have hcp := chordContainerFor_isPre hc
            cases hlv : live acc p with
            | false =>
              obtain ⟨r, hr, hrp⟩ := not_live_iff.mp hlv
              have hrs := hacc r hr
              have hrc : r = c := by
                rcases isPre_comparable hrp hcp with h | h
                · exact hpn r hrs c hcmem h
                · exact (hpn c hcmem r hrs h).symm
              rw [purgeStep_eq_of_dead hn hlv, hspec]
              constructor
              · exact fun hx => Or.inl hx
              · rintro (hx | hx)
                · exact hx
                · rw [Option.some.injEq] at hx
                  rw [← hx, ← hrc]
                  exact hr
            | true =>
              have hunt : Untouched acc c := by
                intro r hr
                have hrs := hacc r hr
                have hrp := live_iff.mp hlv r hr
                constructor
                · cases hrc : isPre r c with
                  | false => rfl
                  | true =>
                    have := isPre_trans hrc hcp
                    rw [this] at hrp
                    cases hrp
                · cases hcr : isPre c r with
                  | false => rfl
                  | true =>
                    have hceq : c = r := hpn c hcmem r hrs hcr
                    rw [← hceq] at hrp
                    rw [hcp] at hrp
                    cases hrp
              have hg : isChordBlock (pruneN acc c cn) = true := by
                rw [pruneN_untouched cn c hunt]
                exact hgo
              rw [purgeStep_fire hn hlv ht hc hcn hg, hspec]
              simp only [List.mem_append, List.mem_singleton, Option.some.injEq]
              constructor
              · rintro (hx | hx)
                · exact Or.inl hx
                · exact Or.inr hx.symm
              · rintro (hx | hx)
                · exact Or.inl hx
                · exact Or.inr hx.symm

theorem fold_mem_spec {f : Forest} (hpn : PairwiseNonNested (specContainers f)) :
    ∀ (l : List Pos), (∀ p ∈ l, p ∈ spanPositions f) →
      ∀ (acc : List Pos), (∀ x ∈ acc, x ∈ specContainers f) →
      ∀ x, x ∈ l.foldl (purgeStep f) acc ↔
        (x ∈ acc ∨ ∃ p ∈ l, specContrib f p = some x) := by
  intro l
  induction l with
  | nil => intro _ acc _ x; simp
  | cons p₀ l ih =>
    intro hl acc hacc x
    rw [List.foldl_cons]
    have hp₀ : p₀ ∈ spanPositions f := hl p₀ (by simp)
    have hacc' : ∀ y ∈ purgeStep f acc p₀, y ∈ specContainers f := by
      intro y hy
      rcases (purgeStep_mem_spec hpn hp₀ hacc y).mp hy with h | h
      · exact hacc y h
      · exact mem_specContainers hp₀ h
    rw [ih (fun p hp => hl p (by simp [hp])) _ hacc' x]
    constructor
    · rintro (hx | ⟨p, hpl, hcp⟩)
      · rcases (purgeStep_mem_spec hpn hp₀ hacc x).mp hx with h | h
        · exact Or.inl h
        · exact Or.inr ⟨p₀, by simp, h⟩
      · exact Or.inr ⟨p, by simp [hpl], hcp⟩
    · rintro (hx | ⟨p, hpl, hcp⟩)
      · exact Or.inl ((purgeStep_mem_spec hpn hp₀ hacc x).mpr (Or.inl hx))
      · rcases List.mem_cons.mp hpl with rfl | hpl
        · exact Or.inl ((purgeStep_mem_spec hpn hp₀ hacc x).mpr (Or.inr hcp))
        · exact Or.inr ⟨p, hpl, hcp⟩

/-- Under pairwise non-nesting of the specification's containers, the
operational purge removes exactly the containers named by the
specification. -/
theorem purge_eq_specPurge_of_nonNested {f : Forest}
    (hpn : PairwiseNonNested (specContainers f)) : purge f = specPurge f := by
  rw [purge, specPurge]
  apply prune_congr
  intro r
  rw [purgeRemovals, purgeRemovalsOver,
    fold_mem_spec hpn (spanPositions f) (fun p hp => hp) [] (by simp) r]
  simp [specContainers, List.mem_filterMap]

/-! ### Sort comparator and stable-insert lemmas -/

theorem leChars_total : ∀ a b : List Char, leChars a b = true ∨ leChars b a = true := by
  intro a
  induction a with
  | nil => intro b; exact Or.inl rfl
  | cons x xs ih =>
    intro b
    cases b with
    | nil => exact Or.inr rfl
    | cons y ys =>
      by_cases hxy : x < y
      · left; simp [leChars, hxy]
      · by_cases hyx : y < x
        · right; simp [leChars, hyx]
        · have hxyeq : x = y := le_antisymm (not_lt.mp hyx) (not_lt.mp hxy)
          subst hxyeq
          rcases ih ys with h | h
          · left; simp [leChars, h]
          · right; simp [leChars, h]

theorem leStr_total (s t : String) : leStr s t = true ∨ leStr t s = true :=
  leChars_total (lowerStr s).data (lowerStr t).data

open List in
theorem insertTagged_perm (x : Tagged) :
    ∀ l : List Tagged, insertTagged x l ~ x :: l := by
  intro l
  induction l with
  | nil => exact List.Perm.refl _
  | cons y ys ih =>
    rw [insertTagged]
    by_cases h : leStr y.2.1 x.2.1 = true
    · rw [if_pos h]
      exact (ih.cons y).trans (List.Perm.swap x y ys)
    · rw [if_neg h]

open List in
theorem sortTaggedList_perm (l : List Tagged) : sortTaggedList l ~ l := by
  suffices h : ∀ (l acc : List Tagged),
      l.foldl (fun acc x => insertTagged x acc) acc ~ l ++ acc by
    simpa using h l []
  intro l
  induction l with
  | nil => intro acc; exact List.Perm.refl _
  | cons x xs ih =>
    intro acc
    rw [List.foldl_cons]
    refine (ih (insertTagged x acc)).trans ?_
    calc xs ++ insertTagged x acc
        ~ xs ++ (x :: acc) := List.Perm.append_left xs (insertTagged_perm x acc)
      _ ~ (x :: xs) ++ acc := by
          rw [List.cons_append]
          exact List.perm_middle

/-- Adjacent key order on tagged entries. -/
theorem chain_insertTagged (x : Tagged) :
    ∀ l : List Tagged,
      List.Chain' (fun a b : Tagged => leStr a.2.1 b.2.1 = true) l →
      List.Chain' (fun a b : Tagged => leStr a.2.1 b.2.1 = true) (insertTagged x l) := by
  intro l
  induction l with
  | nil => intro _; simp [insertTagged]
  | cons y ys ih =>
    intro hch
    rw [insertTagged]
    rw [List.chain'_cons'] at hch
    by_cases h : leStr y.2.1 x.2.1 = true
    · rw [if_pos h]
      rw [List.chain'_cons']
      refine ⟨?_, ih hch.2⟩
      intro z hz
      cases ys with
      | nil =>
        simp [insertTagged] at hz
        rw [← hz]
        exact h
      | cons w ws =>
        rw [insertTagged] at hz
        by_cases hw : leStr w.2.1 x.2.1 = true
        · rw [if_pos hw] at hz
          simp at hz
          rw [← hz]
          exact hch.1 w (by simp)
        · rw [if_neg hw] at hz
          simp at hz
          rw [← hz]
          exact h
    · rw [if_neg h]
      rw [List.chain'_cons']
      refine ⟨?_, ?_⟩
      · intro z hz
        simp at hz
        rw [← hz]
        rcases leStr_total x.2.1 y.2.1 with ht | ht
        · exact ht
        · exact absurd ht h
      · rw [List.chain'_cons']
        exact hch

theorem chain_sortTaggedList (l : List Tagged) :
    List.Chain' (fun a b : Tagged => leStr a.2.1 b.2.1 = true) (sortTaggedList l) := by
  suffices h : ∀ (l acc : List Tagged),
      List.Chain' (fun a b : Tagged => leStr a.2.1 b.2.1 = true) acc →
      List.Chain' (fun a b : Tagged => leStr a.2.1 b.2.1 = true)
        (l.foldl (fun acc x => insertTagged x acc) acc) by
    exact h l [] (by simp)
  intro l
  induction l with
  | nil => intro acc h; exact h
  | cons x xs ih =>
    intro acc h
    rw [List.foldl_cons]
    exact ih _ (chain_insertTagged x acc h)

/-! ### Structure of `sortNode` -/

theorem sortTagL_eq_map :
    ∀ cs : List Node,
      sortTagL cs = cs.map (fun x => (isSortBlock x, chordKey x, sortNode x)) := by
  intro cs
  induction cs with
  | nil => rfl
  | cons x xs ih => rw [sortTagL, ih, List.map_cons]

open List in
/-- The children of a sorted element are a permutation of the sorted
versions of its original children. -/
theorem sortChildren_perm (cs : List Node) :
    ((sortTagL cs).filter (fun e => !e.1)).map (fun e => e.2.2) ++
      (sortTaggedList ((sortTagL cs).filter (fun e => e.1))).map (fun e => e.2.2)
      ~ cs.map sortNode := by
  have h1 : (sortTaggedList ((sortTagL cs).filter (fun e => e.1))).map
        (fun e : Tagged => e.2.2) ~
      ((sortTagL cs).filter (fun e => e.1)).map (fun e : Tagged => e.2.2) :=
    (sortTaggedList_perm _).map _
  have h2 := List.Perm.append_left
    (((sortTagL cs).filter (fun e => !e.1)).map (fun e : Tagged => e.2.2)) h1
  refine h2.trans ?_
  rw [← List.map_append]
  have h4 : (sortTagL cs).filter (fun e => !e.1) ++ (sortTagL cs).filter (fun e => e.1)
      ~ sortTagL cs := by
    have h5 := List.filter_append_perm (fun e : Tagged => !e.1) (sortTagL cs)
    have h6 : (sortTagL cs).filter (fun x => !!x.1) =
        (sortTagL cs).filter (fun x => x.1) :=
      List.filter_congr (fun a _ => by rw [Bool.not_not])
    rwa [h6] at h5
  refine (h4.map _).trans ?_
  rw [sortTagL_eq_map, List.map_map]
  exact List.Perm.refl _

/-! ### Guard and shell invariance of `sortNode` -/

theorem hasUseList_eq_any (b : Bool) :
    ∀ l : List Node, hasDiagramUseList b l = l.any (fun c => hasDiagramUse b c) := by
  intro l
  induction l with
  | nil => rfl
  | cons c cs ih => rw [hasDiagramUseList, List.any_cons, ih]

theorem perm_any {α : Type} {l l' : List α} (h : List.Perm l l') (p : α → Bool) :
    l.any p = l'.any p := by
  cases ha : l'.any p with
  | true =>
    rw [List.any_eq_true] at ha ⊢
    obtain ⟨x, hx, hp⟩ := ha
    exact ⟨x, h.mem_iff.mpr hx, hp⟩
  | false =>
    rw [List.any_eq_false] at ha ⊢
    intro x hx
    exact ha x (h.mem_iff.mp hx)

mutual

theorem hasUse_sortNode : ∀ (n : Node) (b : Bool),
    hasDiagramUse b (sortNode n) = hasDiagramUse b n
  | .text _, _ => rfl
  | .elem t c a cs, b => by
      simp only [sortNode, hasDiagramUse]
      congr 1
      rw [hasUseList_eq_any, hasUseList_eq_any, perm_any (sortChildren_perm cs),
        List.any_map]
      exact hasUse_sortNode_any cs _

theorem hasUse_sortNode_any : ∀ (cs : List Node) (b : Bool),
    cs.any ((fun c => hasDiagramUse b c) ∘ sortNode) = cs.any (fun c => hasDiagramUse b c)
  | [], _ => rfl
  | x :: xs, b => by
      rw [List.any_cons, List.any_cons, hasUse_sortNode_any xs b]
      show (hasDiagramUse b (sortNode x) || _) = _
      rw [hasUse_sortNode x b]

end

theorem isChordBlock_sortNode (n : Node) :
    isChordBlock (sortNode n) = isChordBlock n := by
  cases n with
  | text s => rfl
  | elem t c a cs =>
    simp only [sortNode, isChordBlock]
    rw [hasUseList_eq_any, hasUseList_eq_any, perm_any (sortChildren_perm cs),
      List.any_map]
    exact hasUse_sortNode_any cs _

theorem isDeuDiv_sortNode (n : Node) : isDeuDiv (sortNode n) = isDeuDiv n := by
  cases n <;> rfl

theorem isSortBlock_sortNode (n : Node) :
    isSortBlock (sortNode n) = isSortBlock n := by
  rw [isSortBlock, isSortBlock, isChordBlock_sortNode, isDeuDiv_sortNode]

/-! ### Identity of `sortNode` on block-free subtrees -/

theorem isSortBlock_eq_false_of_blocksIn_zero {n : Node} (h : blocksInN n = 0) :
    isSortBlock n = false := by
  cases n with
  | text s => rfl
  | elem t c a cs =>
    rw [blocksInN] at h
    cases hb : isSortBlock (.elem t c a cs) with
    | false => rfl
    | true =>
      rw [hb, if_pos rfl] at h
      omega

theorem blocksInL_zero_elem : ∀ {cs : List Node}, blocksInL cs = 0 →
    ∀ x ∈ cs, blocksInN x = 0 := by
  intro cs
  induction cs with
  | nil => intro _ x hx; cases hx
  | cons y ys ih =>
    intro h x hx
    rw [blocksInL] at h
    rcases List.mem_cons.mp hx with rfl | hx
    · omega
    · exact ih (by omega) x hx

theorem childFree_of_blocksIn_zero {x : Node} (h : blocksInN x = 0) :
    blocksInL (childrenOf x) = 0 := by
  cases x with
  | text s => rfl
  | elem t c a cs =>
    rw [blocksInN] at h
    rw [childrenOf]
    cases hb : isSortBlock (.elem t c a cs) <;> rw [hb] at h
    · simpa using h
    · rw [if_pos rfl] at h; omega

mutual

theorem sortNode_id_of_childFree : ∀ n : Node, blocksInL (childrenOf n) = 0 → sortNode n = n
  | .text _, _ => rfl
  | .elem t c a cs, h => by
      rw [childrenOf] at h
      have hnb : ∀ x ∈ cs, isSortBlock x = false := fun x hx =>
        isSortBlock_eq_false_of_blocksIn_zero (blocksInL_zero_elem h x hx)
      simp only [sortNode]
      have hfb : (sortTagL cs).filter (fun e => e.1) = [] := by
        rw [sortTagL_eq_map, List.filter_map, List.filter_eq_nil_iff.mpr]
        · simp
        · intro x hx
          simp only [Function.comp]
          rw [hnb x hx]
          exact Bool.false_ne_true
      have hfk : (sortTagL cs).filter (fun e => !e.1) = sortTagL cs := by
        rw [List.filter_eq_self]
        intro e he
        rw [sortTagL_eq_map, List.mem_map] at he
        obtain ⟨x, hx, rfl⟩ := he
        rw [hnb x hx]
        rfl
      rw [hfb, hfk]
      show Node.elem t c a ((sortTagL cs).map (fun e => e.2.2) ++ []) =
        Node.elem t c a cs
      rw [List.append_nil, sortTagL_eq_map, List.map_map]
      show Node.elem t c a (cs.map sortNode) = Node.elem t c a cs
      rw [map_sortNode_id_of_blockFree cs h]

theorem map_sortNode_id_of_blockFree : ∀ cs : List Node, blocksInL cs = 0 →
    cs.map sortNode = cs
  | [], _ => rfl
  | x :: xs, h => by
      rw [blocksInL] at h
      rw [List.map_cons,
        sortNode_id_of_childFree x (childFree_of_blocksIn_zero (by omega)),
        map_sortNode_id_of_blockFree xs (by omega)]

end

/-! ### Sortedness of the result -/

theorem chainKeys_map_entries :
    ∀ es : List Tagged,
      List.Chain' (fun a b : Tagged => leStr a.2.1 b.2.1 = true) es →
      (∀ e ∈ es, e.2.1 = chordKey e.2.2) →
      chainKeys (es.map (fun e => e.2.2)) = true := by
  intro es
  induction es with
  | nil => intro _ _; rfl
  | cons e₁ rest ih =>
    intro hch hid
    cases rest with
    | nil => rfl
    | cons e₂ rest₂ =>
      rw [List.map_cons, List.map_cons, chainKeys]
      rw [List.chain'_cons] at hch
      have h1 : keyLE e₁.2.2 e₂.2.2 = true := by
        rw [keyLE, ← hid e₁ (by simp), ← hid e₂ (by simp)]
        exact hch.1
      rw [h1, Bool.true_and]
      have hres := ih hch.2 (fun e he => hid e (by simp [he]))
      rw [List.map_cons] at hres
      exact hres

theorem sortedDeepL_of_forall : ∀ cs : List Node,
    (∀ x ∈ cs, sortedDeepN x = true) → sortedDeepL cs = true := by
  intro cs
  induction cs with
  | nil => intro _; rfl
  | cons x xs ih =>
    intro h
    rw [sortedDeepL, h x (by simp), ih (fun y hy => h y (by simp [hy]))]
    rfl

theorem noNestedL_elem : ∀ cs : List Node, noNestedL cs = true →
    ∀ x ∈ cs, noNestedN x = true := by
  intro cs
  induction cs with
  | nil => intro _ x hx; cases hx
  | cons y ys ih =>
    intro h x hx
    rw [noNestedL, Bool.and_eq_true] at h
    rcases List.mem_cons.mp hx with rfl | hx
    · exact h.1
    · exact ih h.2 x hx

theorem blockFree_children_of_noNested {t : String} {c : List String}
    {a : List (String × String)} {cs : List Node}
    (h : noNestedN (.elem t c a cs) = true)
    (hb : isSortBlock (.elem t c a cs) = true) : blocksInL cs = 0 := by
  rw [noNestedN, Bool.and_eq_true] at h
  have h1 := h.1
  rw [hb] at h1
  simpa using h1

mutual

theorem sortedDeep_sortNode : ∀ n : Node, noNestedN n = true →
    sortedDeepN (sortNode n) = true
  | .text _, _ => rfl
  | .elem t c a cs, h => by
      have hcopy := h
      rw [noNestedN, Bool.and_eq_true] at hcopy
      obtain ⟨_, hkids⟩ := hcopy
      have hxid : ∀ x ∈ cs, isSortBlock x = true → sortNode x = x := by
        intro x hx hbx
        have hnn := noNestedL_elem cs hkids x hx
        cases x with
        | text s => simp [isSortBlock, isDeuDiv, tagOf] at hbx
        | elem t' c' a' cs' =>
          have hbf := blockFree_children_of_noNested hnn hbx
          exact sortNode_id_of_childFree _ (by rw [childrenOf]; exact hbf)
      have hBmem : ∀ e ∈ sortTaggedList ((sortTagL cs).filter (fun e => e.1)),
          ∃ x ∈ cs, e = (isSortBlock x, chordKey x, sortNode x) ∧
            isSortBlock x = true := by
        intro e he
        have hmem := (sortTaggedList_perm _).mem_iff.mp he
        rw [List.mem_filter] at hmem
        obtain ⟨hetag, hb⟩ := hmem
        rw [sortTagL_eq_map, List.mem_map] at hetag
        obtain ⟨x, hx, rfl⟩ := hetag
        exact ⟨x, hx, rfl, by simpa using hb⟩
      simp only [sortNode, sortedDeepN, Bool.and_eq_true]
      constructor
      · rw [List.filter_append]
        have hA : (((sortTagL cs).filter (fun e => !e.1)).map
            (fun e : Tagged => e.2.2)).filter isSortBlock = [] := by
          rw [List.filter_eq_nil_iff]
          intro y hy
          rw [List.mem_map] at hy
          obtain ⟨e, he, rfl⟩ := hy
          rw [List.mem_filter] at he
          obtain ⟨hetag, hnb⟩ := he
          rw [sortTagL_eq_map, List.mem_map] at hetag
          obtain ⟨x, hx, rfl⟩ := hetag
          simp only at hnb
          intro hcon
          rw [isSortBlock_sortNode] at hcon
          rw [hcon] at hnb
          cases hnb
        rw [hA, List.nil_append]
        have hB : ((sortTaggedList ((sortTagL cs).filter (fun e => e.1))).map
            (fun e : Tagged => e.2.2)).filter isSortBlock =
            (sortTaggedList ((sortTagL cs).filter (fun e => e.1))).map
              (fun e : Tagged => e.2.2) := by
          rw [List.filter_eq_self]
          intro y hy
          rw [List.mem_map] at hy
          obtain ⟨e, he, rfl⟩ := hy
          obtain ⟨x, hx, rfl, hbx⟩ := hBmem e he
          simp only
          rw [isSortBlock_sortNode, hbx]
        rw [hB]
        apply chainKeys_map_entries _ (chain_sortTaggedList _)
        intro e he
        obtain ⟨x, hx, rfl, hbx⟩ := hBmem e he
        simp only
        rw [hxid x hx hbx]
      · apply sortedDeepL_of_forall
        intro y hy
        rw [List.mem_append] at hy
        rcases hy with hy | hy
        · rw [List.mem_map] at hy
          obtain ⟨e, he, rfl⟩ := hy
          rw [List.mem_filter] at he
          obtain ⟨hetag, _⟩ := he
          rw [sortTagL_eq_map, List.mem_map] at hetag
          obtain ⟨x, hx, rfl⟩ := hetag
          exact sortedDeep_sortNode_all cs hkids x hx
        · rw [List.mem_map] at hy
          obtain ⟨e, he, rfl⟩ := hy
          obtain ⟨x, hx, rfl, _⟩ := hBmem e he
          exact sortedDeep_sortNode_all cs hkids x hx

theorem sortedDeep_sortNode_all : ∀ cs : List Node, noNestedL cs = true →
    ∀ x ∈ cs, sortedDeepN (sortNode x) = true
  | [], _, x, hx => by cases hx
  | y :: ys, h, x, hx => by
      rw [noNestedL, Bool.and_eq_true] at h
      rcases List.mem_cons.mp hx with rfl | hx
      · exact sortedDeep_sortNode x h.1
      · exact sortedDeep_sortNode_all ys h.2 x hx

end

theorem sortChordBlocks_sorted {f : Forest} (hcount : 2 ≤ blocksInL f)
    (hnn : noNestedF f = true) : sortedDeepF (sortChordBlocks f) = true := by
  rw [sortChordBlocks, if_neg (by omega)]
  apply sortedDeepL_of_forall
  intro y hy
  rw [List.mem_map] at hy
  obtain ⟨x, hx, rfl⟩ := hy
  exact sortedDeep_sortNode x (noNestedL_elem f hnn x hx)

/-! ### The reorder-only relation and `sortChordBlocks` -/

mutual

theorem reorderN_refl : ∀ n : Node, ReorderN n n
  | .text s => ReorderN.text s
  | .elem t c a cs => ReorderN.elem t c a cs cs (reorderL_refl cs)

theorem reorderL_refl : ∀ l : List Node, ReorderL l l
  | [] => ReorderL.nil
  | x :: xs => ReorderL.cons x x xs xs (reorderN_refl x) (reorderL_refl xs)

end

theorem reorderL_of_perm : ∀ {l l' : List Node}, List.Perm l l' → ReorderL l l' := by
  intro l l' h
  induction h with
  | nil => exact ReorderL.nil
  | cons x _ ih => exact ReorderL.cons x x _ _ (reorderN_refl x) ih
  | swap x y l =>
    exact ReorderL.swap y y x x l l (reorderN_refl y) (reorderN_refl x) (reorderL_refl l)
  | trans _ _ ih₁ ih₂ => exact ReorderL.trans _ _ _ ih₁ ih₂

mutual

theorem reorderN_sortNode : ∀ n : Node, ReorderN n (sortNode n)
  | .text s => ReorderN.text s
  | .elem t c a cs => by
      refine ReorderN.elem t c a cs _ ?_
      exact ReorderL.trans _ (cs.map sortNode) _ (reorderL_map_sortNode cs)
        (reorderL_of_perm (sortChildren_perm cs).symm)

theorem reorderL_map_sortNode : ∀ cs : List Node, ReorderL cs (cs.map sortNode)
  | [] => ReorderL.nil
  | x :: xs =>
      ReorderL.cons x (sortNode x) xs _ (reorderN_sortNode x) (reorderL_map_sortNode xs)

end

theorem countElems_of_reorderL {l l' : List Node} (h : ReorderL l l') :
    countElemsL l' = countElemsL l :=
  @ReorderL.rec
    (fun n n' _ => countElemsN n' = countElemsN n)
    (fun l l' _ => countElemsL l' = countElemsL l)
    (fun _ => rfl)
    (fun t c a cs ds _ ih => by simp only [countElemsN]; rw [ih])
    rfl
    (fun x y l l' _ _ ihn ihl => by simp only [countElemsL]; rw [ihn, ihl])
    (fun x x' y y' l l' _ _ _ ihx ihy ihl => by
      simp only [countElemsL]
      rw [ihx, ihy, ihl]
      omega)
    (fun l₁ l₂ l₃ _ _ ih₁ ih₂ => ih₂.trans ih₁)
    l l' h

theorem sortChordBlocks_reorders (f : Forest) :
    ReorderL f (sortChordBlocks f) ∧
      countElemsF (sortChordBlocks f) = countElemsF f := by
  rw [sortChordBlocks]
  by_cases h : blocksInL f < 2
  · rw [if_pos h]
    exact ⟨reorderL_refl f, rfl⟩
  · rw [if_neg h]
    exact ⟨reorderL_map_sortNode f,
      countElems_of_reorderL (reorderL_map_sortNode f)⟩

/-! ### Click-marking lemmas -/

theorem getN_nil (m : Node) : getN m [] = some m := by
  cases m <;> rfl

theorem setAttr_find_same : ∀ (a : List (String × String)) (k v : String),
    (setAttr a k v).find? (fun kv => kv.1 == k) = some (k, v) := by
  intro a k v
  induction a with
  | nil => simp [setAttr, List.find?]
  | cons kv rest ih =>
    obtain ⟨k', v'⟩ := kv
    rw [setAttr]
    by_cases h : (k' == k) = true
    · rw [if_pos h]
      simp [List.find?]
    · rw [if_neg h]
      rw [List.find?_cons]
      have hh : (k' == k) = false := by
        cases hx : (k' == k) with
        | false => rfl
        | true => exact absurd hx h
      simp only [hh, cond_false]
      exact ih

theorem attrOf_markRoot_same (t : String) (c : List String)
    (a : List (String × String)) (cs : List Node) :
    attrOf (markN (.elem t c a cs) []) "_clickedSummary" = some "1" := by
  rw [markN, attrOf, setAttr_find_same]
  rfl

theorem markL_getElem : ∀ (ns : List Node) (i : Nat) (p : Pos) (j : Nat),
    (markL ns i p)[j]? =
      if j = i then (ns[j]?).map (fun n => markN n p) else ns[j]? := by
  intro ns
  induction ns with
  | nil =>
    intro i p j
    rw [markL]
    simp
  | cons n ns ih =>
    intro i p j
    cases i with
    | zero =>
      rw [markL]
      cases j with
      | zero => simp
      | succ j => simp
    | succ i =>
      rw [markL]
      cases j with
      | zero => simp
      | succ j =>
        simp only [List.getElem?_cons_succ]
        rw [ih i p j]
        by_cases h : j = i
        · simp [h]
        · have : ¬(j + 1 = i + 1) := by omega
          simp [h, this]

theorem getN_cons (t : String) (c : List String) (a : List (String × String))
    (cs : List Node) (j : Nat) (q : Pos) :
    getN (.elem t c a cs) (j :: q) = (cs[j]?).bind (fun x => getN x q) := by
  rw [getN]
  cases cs[j]? <;> rfl

theorem getN_markN : ∀ (q : Pos) (n : Node) (p : Pos),
    getN (markN n p) q =
      if isPre q p then (getN n q).map (fun m => markN m (p.drop q.length))
      else getN n q := by
  intro q
  induction q with
  | nil =>
    intro n p
    rw [getN_nil, getN_nil]
    simp [isPre]
  | cons j q ih =>
    intro n p
    cases n with
    | text s =>
      cases p with
      | nil => simp [markN, getN, isPre]
      | cons i p' => simp [markN, getN]
    | elem t c a cs =>
      cases p with
      | nil =>
        rw [markN]
        simp [getN_cons, isPre]
      | cons i p' =>
        by_cases hj : j = i
        · subst hj
          have hL : getN (markN (Node.elem t c a cs) (j :: p')) (j :: q) =
              (cs[j]?).bind (fun x => getN (markN x p') q) := by
            rw [markN, getN_cons, markL_getElem cs j p' j]
            simp only [if_pos rfl]
            cases cs[j]? <;> rfl
          rw [hL, getN_cons]
          have hpre_eq : isPre (j :: q) (j :: p') = isPre q p' := by
            simp [isPre]
          rw [hpre_eq]
          cases hcs : cs[j]? with
          | none => simp
          | some m =>
            simp only [Option.some_bind]
            rw [ih m p']
            cases hpre : isPre q p' with
            | true => simp
            | false => simp
        · have hj' : (j == i) = false := by simpa using hj
          have hL : getN (markN (Node.elem t c a cs) (i :: p')) (j :: q) =
              getN (Node.elem t c a cs) (j :: q) := by
            rw [markN, getN_cons, getN_cons, markL_getElem cs i p' j, if_neg hj]
          have hpre : isPre (j :: q) (i :: p') = false := by simp [isPre, hj']
          rw [hL, hpre]
          simp

theorem getF_markF (f : Forest) (p q : Pos) :
    getF (markF f p) q =
      if isPre q p then (getF f q).map (fun m => markN m (p.drop q.length))
      else getF f q := by
  cases p with
  | nil =>
    rw [markF]
    cases q with
    | nil => simp [getF, isPre]
    | cons j q' =>
      have h : isPre (j :: q') [] = false := rfl
      rw [h]
      simp
  | cons i p' =>
    rw [markF]
    cases q with
    | nil =>
      have h : isPre [] (i :: p') = true := rfl
      rw [h]
      simp [getF]
    | cons j q' =>
      rw [getF_cons, getF_cons, markL_getElem f i p' j]
      by_cases hj : j = i
      · subst hj
        have hpre_eq : isPre (j :: q') (j :: p') = isPre q' p' := by
          simp [isPre]
        rw [hpre_eq]
        cases hcs : f[j]? with
        | none => simp
        | some m =>
          cases hpre : isPre q' p' with
          | true => simp [getN_markN, hpre]
          | false => simp [getN_markN, hpre]
      · have hj' : (j == i) = false := by simpa using hj
        rw [if_neg hj]
        have hpre : isPre (j :: q') (i :: p') = false := by simp [isPre, hj']
        rw [hpre]
        simp

theorem clickedSummaryMark_markN (n : Node) (s : Pos)
    (h : clickedSummaryMark n = true) : clickedSummaryMark (markN n s) = true := by
  cases n with
  | text _ => exact h
  | elem t c a cs =>
    cases s with
    | nil =>
      rw [clickedSummaryMark, attrOf_markRoot_same]
      rfl
    | cons i s' => exact h

/-! ### Click behavior -/

theorem click_none_of_no_diagrams {f : Forest} (h : onDiagramsPage f = false) :
    clickSummaryIfPresent f = (f, none) := by
  rw [clickSummaryIfPresent, h]
  rfl

theorem click_result {f : Forest} :
    clickSummaryIfPresent f = (f, none) ∨
      ∃ p, (candPositions f).find? (clickPred f) = some p ∧
        onDiagramsPage f = true ∧
        clickSummaryIfPresent f = (markF f p, some p) := by
  cases hd : onDiagramsPage f with
  | false => exact Or.inl (click_none_of_no_diagrams hd)
  | true =>
    rw [clickSummaryIfPresent, hd]
    cases hf : (candPositions f).find? (clickPred f) with
    | none => exact Or.inl rfl
    | some p => exact Or.inr ⟨p, rfl, rfl, rfl⟩

theorem click_some_iff {f : Forest} {p : Pos} :
    (clickSummaryIfPresent f).2 = some p ↔
      onDiagramsPage f = true ∧ (candPositions f).find? (clickPred f) = some p := by
  rcases click_result (f := f) with h | ⟨p', hf, hd, h⟩
  · rw [h]
    simp only [Option.some.injEq]
    constructor
    · intro hx; cases hx
    · rintro ⟨hd, hfind⟩
      rw [clickSummaryIfPresent, hd, hfind] at h
      have := congrArg Prod.snd h
      simp at this
  · rw [h]
    simp only [Option.some.injEq]
    constructor
    · rintro rfl
      exact ⟨hd, hf⟩
    · rintro ⟨-, hfind⟩
      rw [hf] at hfind
      exact (Option.some.injEq _ _).mp hfind.symm |>.symm

theorem clickPred_elem {f : Forest} {p : Pos} (hp : p ∈ candPositions f) :
    ∃ t c a cs, getF f p = some (.elem t c a cs) := by
  obtain ⟨m, hm, hcand⟩ := getF_of_mem_posOfF hp
  cases m with
  | text s => simp [isCandidate, tagOf, attrOf] at hcand
  | elem t c a cs => exact ⟨t, c, a, cs, hm⟩

theorem marked_of_click {f f' : Forest} {p : Pos}
    (h : clickSummaryIfPresent f = (f', some p)) :
    nodePred f' clickedSummaryMark p = true := by
  rcases click_result (f := f) with hr | ⟨p', hf, _, hr⟩
  · rw [h] at hr
    cases hr
  · rw [h] at hr
    have hpp : p' = p := by
      have := congrArg Prod.snd hr
      simpa using this.symm
    subst hpp
    have hff : f' = markF f p' := by
      have := congrArg Prod.fst hr
      simpa using this
    subst hff
    have hmem := List.mem_of_find?_eq_some hf
    obtain ⟨t, c, a, cs, hget⟩ := clickPred_elem hmem
    rw [nodePred, getF_markF, if_pos (isPre_refl p'), hget]
    simp only [Option.map_some', List.drop_length]
    rw [clickedSummaryMark, attrOf_markRoot_same]
    rfl

theorem marks_persist {f : Forest} {q : Pos}
    (h : nodePred f clickedSummaryMark q = true) :
    nodePred (clickSummaryIfPresent f).1 clickedSummaryMark q = true := by
  rcases click_result (f := f) with hr | ⟨p, _, _, hr⟩
  · rw [hr]
    exact h
  · rw [hr]
    simp only
    cases hget : getF f q with
    | none =>
      simp only [nodePred, hget] at h
      exact absurd h Bool.false_ne_true
    | some n =>
      simp only [nodePred, hget] at h
      rw [nodePred, getF_markF]
      by_cases hpre : isPre q p = true
      · rw [if_pos hpre, hget]
        simp only [Option.map_some']
        exact clickedSummaryMark_markN n _ h
      · have hpre' : isPre q p = false := by
          cases hx : isPre q p with
          | false => rfl
          | true => exact absurd hx hpre
        rw [if_neg (by simp [hpre']), hget]
        exact h

theorem click_ne_marked {f : Forest} {q : Pos}
    (h : nodePred f clickedSummaryMark q = true) {p : Pos}
    (hc : (clickSummaryIfPresent f).2 = some p) : p ≠ q := by
  obtain ⟨-, hfind⟩ := click_some_iff.mp hc
  have hpred := List.find?_some hfind
  intro hpq
  subst hpq
  cases hget : getF f p with
  | none =>
    simp only [nodePred, hget] at h
    exact absurd h Bool.false_ne_true
  | some n =>
    simp only [nodePred, hget] at h
    simp only [clickPred, hget, Bool.and_eq_true] at hpred
    have hmk := hpred.2
    rw [h] at hmk
    cases hmk

theorem clickSeq_not_mem_of_marked :
    ∀ (n : Nat) (f : Forest) (q : Pos),
      nodePred f clickedSummaryMark q = true → q ∉ (clickSeq f n).2 := by
  intro n
  induction n with
  | zero => intro f q _ h; cases h
  | succ n ih =>
    intro f q hm h
    rw [clickSeq] at h
    simp only [List.mem_append] at h
    rcases h with h | h
    · cases hc : (clickSummaryIfPresent f).2 with
      | none => rw [hc] at h; cases h
      | some p =>
        rw [hc] at h
        simp only [List.mem_singleton] at h
        exact click_ne_marked hm hc (h ▸ rfl)
    · exact ih (clickSummaryIfPresent f).1 q (marks_persist hm) h

theorem clickSeq_nodup : ∀ (n : Nat) (f : Forest), ((clickSeq f n).2).Nodup := by
  intro n
  induction n with
  | zero => intro f; exact List.nodup_nil
  | succ n ih =>
    intro f
    rw [clickSeq]
    cases hc : (clickSummaryIfPresent f).2 with
    | none => simpa using ih (clickSummaryIfPresent f).1
    | some p =>
      simp only [List.singleton_append, List.nodup_cons]
      refine ⟨?_, ih (clickSummaryIfPresent f).1⟩
      have hm : nodePred (clickSummaryIfPresent f).1 clickedSummaryMark p = true := by
        apply marked_of_click (f := f)
        rw [← hc]
      exact clickSeq_not_mem_of_marked n (clickSummaryIfPresent f).1 p hm

/-! ### MutationObserver callback vs purge -/

theorem isSpanSel_text (s : String) : isSpanSel (.text s) = false := rfl

theorem fold_const (f : Forest) :
    ∀ (l : List Pos) (acc : List Pos), (∀ q ∈ l, purgeStep f acc q = acc) →
      l.foldl (purgeStep f) acc = acc := by
  intro l
  induction l with
  | nil => intro acc _; rfl
  | cons q l ih =>
    intro acc h
    rw [List.foldl_cons, h q (by simp)]
    exact ih acc (fun x hx => h x (by simp [hx]))

theorem fold_two_phase (f : Forest) {p c : Pos}
    (hfire : purgeStep f [] p = [c])
    (hdead : purgeStep f [c] p = [c]) :
    ∀ l : List Pos, (∀ q ∈ l, q = p ∨ ∀ acc, purgeStep f acc q = acc) →
      l.foldl (purgeStep f) [] = if p ∈ l then [c] else [] := by
  intro l
  induction l with
  | nil => intro _; rfl
  | cons q l ih =>
    intro h
    rw [List.foldl_cons]
    by_cases hqp : q = p
    · subst hqp
      rw [hfire, if_pos (by simp)]
      apply fold_const
      intro x hx
      rcases h x (by simp [hx]) with rfl | hno
      · exact hdead
      · exact hno [c]
    · rcases h q (by simp) with rfl | hno
      · exact absurd rfl hqp
      · rw [hno []]
        rw [ih (fun x hx => h x (by simp [hx]))]
        have : (p ∈ q :: l) = (p ∈ l) := by
          simp [List.mem_cons]
          intro hpq
          exact absurd hpq.symm hqp
        by_cases hm : p ∈ l
        · rw [if_pos hm, if_pos (by simp [hm])]
        · rw [if_neg hm, if_neg (by simp [hm]; exact fun hx => hqp hx.symm)]

theorem fold_filter (f : Forest) {P Q : Pos → Bool}
    (hPQ : ∀ q, Q q = true → P q = true) :
    ∀ (l : List Pos) (acc : List Pos),
      (∀ q ∈ l, P q = true → Q q = false → ∀ a, purgeStep f a q = a) →
      (l.filter P).foldl (purgeStep f) acc = (l.filter Q).foldl (purgeStep f) acc := by
  intro l
  induction l with
  | nil => intro acc _; rfl
  | cons q l ih =>
    intro acc h
    rw [List.filter_cons, List.filter_cons]
    cases hQ : Q q with
    | true =>
      rw [hPQ q hQ]
      rw [if_pos rfl, if_pos rfl, List.foldl_cons, List.foldl_cons]
      exact ih _ (fun x hx => h x (by simp [hx]))
    | false =>
      rw [if_neg Bool.false_ne_true]
      cases hP : P q with
      | false =>
        rw [if_neg Bool.false_ne_true]
        exact ih acc (fun x hx => h x (by simp [hx]))
      | true =>
        rw [if_pos rfl, List.foldl_cons, h q (by simp) hP hQ acc]
        exact ih acc (fun x hx => h x (by simp [hx]))

theorem observer_self_no_container {f : Forest} {p : Pos} {n : Node}
    (hn : getF f p = some n) (hsel : isSpanSel n = true) (htgt : isTargetSpan n = true)
    (hc : chordContainerFor f p = none) : observerHandleAdded f p = f := by
  simp [observerHandleAdded, hn, hsel, htgt, hc]

theorem observer_self_no_cnode {f : Forest} {p : Pos} {n : Node} {c : Pos}
    (hn : getF f p = some n) (hsel : isSpanSel n = true) (htgt : isTargetSpan n = true)
    (hc : chordContainerFor f p = some c) (hcn : getF f c = none) :
    observerHandleAdded f p = f := by
  simp [observerHandleAdded, hn, hsel, htgt, hc, hcn]

theorem observer_self_guard_false {f : Forest} {p : Pos} {n : Node} {c : Pos} {cn : Node}
    (hn : getF f p = some n) (hsel : isSpanSel n = true) (htgt : isTargetSpan n = true)
    (hc : chordContainerFor f p = some c) (hcn : getF f c = some cn)
    (hg : isChordBlock cn = false) : observerHandleAdded f p = f := by
  simp [observerHandleAdded, hn, hsel, htgt, hc, hcn, hg]

theorem observer_self_fire {f : Forest} {p : Pos} {n : Node} {c : Pos} {cn : Node}
    (hn : getF f p = some n) (hsel : isSpanSel n = true) (htgt : isTargetSpan n = true)
    (hc : chordContainerFor f p = some c) (hcn : getF f c = some cn)
    (hg : isChordBlock cn = true) : observerHandleAdded f p = prune f [c] := by
  simp [observerHandleAdded, hn, hsel, htgt, hc, hcn, hg]

theorem observer_nonself_empty {f : Forest} {p : Pos} {n : Node}
    (hn : getF f p = some n) (hself : (isSpanSel n && isTargetSpan n) = false)
    (hse : (strictSpansUnder f p).isEmpty = true) : observerHandleAdded f p = f := by
  simp [observerHandleAdded, hn, hself, hse]

theorem observer_nonself_nonempty {f : Forest} {p : Pos} {n : Node}
    (hn : getF f p = some n) (hself : (isSpanSel n && isTargetSpan n) = false)
    (hse : (strictSpansUnder f p).isEmpty = false) :
    observerHandleAdded f p = prune f (purgeRemovalsOver f (strictSpansUnder f p)) := by
  simp [observerHandleAdded, hn, hself, hse]

/-- The amended claim C8 equivalence: unless the added node is itself a
matching target span with further target spans strictly inside it, the
observer callback's removals coincide with running purge over the spans of
the node and its subtree, containers resolved in the whole document. -/
theorem observer_eq_purgeUnderIncl {f : Forest} {p : Pos} {n : Node}
    (hn : getF f p = some n)
    (hyp : ¬(isSpanSel n = true ∧ isTargetSpan n = true ∧
      ∃ q ∈ strictSpansUnder f p, nodePred f isTargetSpan q = true)) :
    observerHandleAdded f p = purgeUnderIncl f p := by
  rw [purgeUnderIncl]
  by_cases hself : (isSpanSel n && isTargetSpan n) = true
  · rw [Bool.and_eq_true] at hself
    obtain ⟨hsel, htgt⟩ := hself
    have hns : ∀ q ∈ strictSpansUnder f p, nodePred f isTargetSpan q = false := by
      intro q hq
      cases hx : nodePred f isTargetSpan q with
      | false => rfl
      | true => exact absurd ⟨hsel, htgt, q, hq, hx⟩ hyp
    have hnoop : ∀ q ∈ strictSpansUnder f p, ∀ acc, purgeStep f acc q = acc := by
      intro q hq acc
      have hq' : q ∈ spanPositions f := by
        rw [strictSpansUnder, List.mem_filter] at hq
        exact hq.1
      obtain ⟨m, hm, _⟩ := getF_of_mem_posOfF hq'
      have hx := hns q hq
      simp only [nodePred, hm] at hx
      exact purgeStep_eq_of_not_target hm hx
    have hdisc : ∀ q ∈ spansUnderIncl f p,
        q = p ∨ ∀ acc, purgeStep f acc q = acc := by
      intro q hq
      rw [spansUnderIncl, List.mem_filter] at hq
      by_cases hqp : q = p
      · exact Or.inl hqp
      · refine Or.inr (hnoop q ?_)
        rw [strictSpansUnder, List.mem_filter]
        refine ⟨hq.1, ?_⟩
        rw [hq.2]
        simpa using hqp
    have hpmem : p ∈ spansUnderIncl f p := by
      rw [spansUnderIncl, List.mem_filter]
      exact ⟨mem_posOfF_of_getF isSpanSel_text hn hsel, isPre_refl p⟩
    cases hc : chordContainerFor f p with
    | none =>
      have hsteps : ∀ q ∈ spansUnderIncl f p, purgeStep f [] q = [] := by
        intro q hq
        rcases hdisc q hq with rfl | hno
        · exact purgeStep_eq_of_no_container hn hc
        · exact hno []
      have hfold : purgeRemovalsOver f (spansUnderIncl f p) = [] := by
        rw [purgeRemovalsOver]
        exact fold_const f _ [] hsteps
      rw [observer_self_no_container hn hsel htgt hc, hfold, prune_nilR]
    | some c =>
      cases hcn : getF f c with
      | none =>
        have hsteps : ∀ q ∈ spansUnderIncl f p, purgeStep f [] q = [] := by
          intro q hq
          rcases hdisc q hq with rfl | hno
          · exact purgeStep_eq_of_no_cnode hn hc hcn
          · exact hno []
        have hfold : purgeRemovalsOver f (spansUnderIncl f p) = [] := by
          rw [purgeRemovalsOver]
          exact fold_const f _ [] hsteps
        rw [observer_self_no_cnode hn hsel htgt hc hcn, hfold, prune_nilR]
      | some cn =>
        cases hg : isChordBlock cn with
        | false =>
          have hsteps : ∀ q ∈ spansUnderIncl f p, purgeStep f [] q = [] := by
            intro q hq
            rcases hdisc q hq with rfl | hno
            · refine purgeStep_eq_of_guard_false hn hc hcn ?_
              rw [pruneN_nilR]
              exact hg
            · exact hno []
          have hfold : purgeRemovalsOver f (spansUnderIncl f p) = [] := by
            rw [purgeRemovalsOver]
            exact fold_const f _ [] hsteps
          rw [observer_self_guard_false hn hsel htgt hc hcn hg, hfold, prune_nilR]
        | true =>
          have hfire : purgeStep f [] p = [c] := by
            have hgn : isChordBlock (pruneN [] c cn) = true := by
              rw [pruneN_nilR]
              exact hg
            have hres := purgeStep_fire hn (live_nil p) htgt hc hcn hgn
            simpa using hres
          have hdead : purgeStep f [c] p = [c] := by
            apply purgeStep_eq_of_dead hn
            rw [not_live_iff]
            exact ⟨c, by simp, chordContainerFor_isPre hc⟩
          have hfold : purgeRemovalsOver f (spansUnderIncl f p) = [c] := by
            rw [purgeRemovalsOver, fold_two_phase f hfire hdead _ hdisc,
              if_pos hpmem]
          rw [observer_self_fire hn hsel htgt hc hcn hg, hfold]
  · have hself' : (isSpanSel n && isTargetSpan n) = false := by
      cases hx : (isSpanSel n && isTargetSpan n) with
      | false => rfl
      | true => exact absurd hx hself
    have hptgt : ∀ {m : Node}, getF f p = some m → isSpanSel m = true →
        isTargetSpan m = false := by
      intro m hm hsel
      rw [hn] at hm
      cases hm
      cases hx : isTargetSpan n with
      | false => rfl
      | true =>
        exact absurd (by rw [hsel, hx]; rfl) hself
    have hfoldeq : purgeRemovalsOver f (spansUnderIncl f p) =
        purgeRemovalsOver f (strictSpansUnder f p) := by
      rw [purgeRemovalsOver, purgeRemovalsOver, spansUnderIncl, strictSpansUnder]
      apply fold_filter f
      · intro q hq
        rw [Bool.and_eq_true] at hq
        exact hq.1
      · intro q hq hP hQ a
        have hqp : q = p := by
          cases hx : (q == p) with
          | true => simpa using hx
          | false =>
            rw [hP] at hQ
            simp [hx] at hQ
        subst hqp
        obtain ⟨m, hm, hsel⟩ := getF_of_mem_posOfF hq
        exact purgeStep_eq_of_not_target hm (hptgt hm hsel)
    rw [hfoldeq]
    cases hse : (strictSpansUnder f p).isEmpty with
    | true =>
      have hnil : strictSpansUnder f p = [] := by
        rwa [List.isEmpty_iff] at hse
      rw [observer_nonself_empty hn hself' hse, hnil]
      rw [purgeRemovalsOver, List.foldl_nil, prune_nilR]
    | false =>
      rw [observer_nonself_nonempty hn hself' hse]

/-! ### Helpers for the idempotence analysis -/

theorem ancPrefixes_nil : ancPrefixes [] = [] := rfl

theorem ancPrefixes_snoc (q : Pos) (i : Nat) :
    ancPrefixes (q ++ [i]) = (q ++ [i]) :: ancPrefixes q := by
  rw [ancPrefixes, ancPrefixes]
  have hlen : (q ++ [i]).length = q.length + 1 := by simp
  rw [hlen, List.range_succ, List.reverse_append]
  simp only [List.reverse_singleton, List.singleton_append, List.map_cons]
  congr 1
  · have hl : q.length + 1 = (q ++ [i]).length := hlen.symm
    rw [hl, List.take_length]
  · apply List.map_congr_left
    intro k hk
    rw [List.mem_reverse, List.mem_range] at hk
    exact List.take_append_of_le_length (by omega)

theorem getF_single (f : Forest) (k : Nat) : getF f [k] = f[k]? := by
  rw [getF_cons]
  cases f[k]? with
  | none => rfl
  | some m => rw [Option.some_bind, getN_nil]

theorem getN_elem_single (t : String) (c : List String) (a : List (String × String))
    (cs : List Node) (k : Nat) : getN (.elem t c a cs) [k] = cs[k]? := by
  rw [getN_cons]
  cases cs[k]? with
  | none => rfl
  | some m => rw [Option.some_bind, getN_nil]

theorem getF_child {f : Forest} {q : Pos} {t : String} {c : List String}
    {a : List (String × String)} {cs : List Node}
    (hq : getF f q = some (.elem t c a cs)) {k : Nat} {ch : Node}
    (hk : cs[k]? = some ch) : getF f (q ++ [k]) = some ch := by
  cases q with
  | nil => cases hq
  | cons i rest =>
    rw [getF_append, hq, Option.some_bind, getN_elem_single, hk]

theorem exists_snoc_of_ne_nil {q : Pos} (h : q ≠ []) :
    ∃ q' i, q = q' ++ [i] := by
  cases hq : q.reverse with
  | nil =>
    rw [List.reverse_eq_nil_iff] at hq
    exact absurd hq h
  | cons i rest =>
    refine ⟨rest.reverse, i, ?_⟩
    have := congrArg List.reverse hq
    rw [List.reverse_reverse] at this
    rw [this]
    simp

theorem noElemsL_get : ∀ {cs : List Node} {j : Nat} {ch : Node},
    noElemsL cs = true → cs[j]? = some ch → noElemsN ch = true := by
  intro cs
  induction cs with
  | nil => intro j ch _ h; cases h
  | cons x xs ih =>
    intro j ch hl hj
    rw [noElemsL, Bool.and_eq_true] at hl
    cases j with
    | zero =>
      simp only [List.getElem?_cons_zero, Option.some.injEq] at hj
      rw [← hj]
      exact hl.1
    | succ j =>
      simp only [List.getElem?_cons_succ] at hj
      exact ih hl.2 hj

theorem flatSpansL_get : ∀ {cs : List Node} {j : Nat} {ch : Node},
    flatSpansL cs = true → cs[j]? = some ch → flatSpansN ch = true := by
  intro cs
  induction cs with
  | nil => intro j ch _ h; cases h
  | cons x xs ih =>
    intro j ch hl hj
    rw [flatSpansL, Bool.and_eq_true] at hl
    cases j with
    | zero =>
      simp only [List.getElem?_cons_zero, Option.some.injEq] at hj
      rw [← hj]
      exact hl.1
    | succ j =>
      simp only [List.getElem?_cons_succ] at hj
      exact ih hl.2 hj

theorem flatSpansN_getN : ∀ (s : Pos) (n m : Node),
    flatSpansN n = true → getN n s = some m → flatSpansN m = true := by
  intro s
  induction s with
  | nil =>
    intro n m hf hg
    rw [getN_nil] at hg
    cases hg
    exact hf
  | cons j s ih =>
    intro n m hf hg
    cases n with
    | text str => cases hg
    | elem t c a cs =>
      rw [getN] at hg
      cases hc : cs[j]? with
      | none => rw [hc] at hg; cases hg
      | some ch =>
        rw [hc] at hg
        rw [flatSpansN, Bool.and_eq_true] at hf
        exact ih ch m (flatSpansL_get hf.2 hc) hg

theorem flatSpansF_at {f : Forest} (hf : flatSpansF f = true) {p : Pos} {n : Node}
    (hp : getF f p = some n) : flatSpansN n = true := by
  cases p with
  | nil => cases hp
  | cons i s =>
    rw [getF_cons] at hp
    cases hc : f[i]? with
    | none => rw [hc] at hp; cases hp
    | some c =>
      rw [hc, Option.some_bind] at hp
      exact flatSpansN_getN s c n (flatSpansL_get hf hc) hp

theorem noElems_children_of_flat_span {n : Node} (hf : flatSpansN n = true)
    (hsel : isSpanSel n = true) : noElemsL (childrenOf n) = true := by
  cases n with
  | text s => rfl
  | elem t c a cs =>
    rw [flatSpansN, Bool.and_eq_true] at hf
    have h1 := hf.1
    rw [hsel] at h1
    rw [childrenOf]
    simpa using h1

theorem text_of_getN_flat {t : String} {c : List String}
    {a : List (String × String)} {cs : List Node} (hne : noElemsL cs = true) :
    ∀ {s : Pos} {m : Node}, s ≠ [] → getN (.elem t c a cs) s = some m →
      ∃ str, m = .text str := by
  intro s m hs hg
  cases s with
  | nil => exact absurd rfl hs
  | cons j s' =>
    rw [getN] at hg
    cases hc : cs[j]? with
    | none => rw [hc] at hg; cases hg
    | some ch =>
      rw [hc] at hg
      simp only at hg
      have hch := noElemsL_get hne hc
      cases ch with
      | text str =>
        cases s' with
        | nil =>
          rw [getN_nil] at hg
          cases hg
          exact ⟨str, rfl⟩
        | cons k s'' => cases hg
      | elem t' c' a' cs' => cases hch

theorem isDiv_text (s : String) : isDiv (.text s) = false := rfl

theorem isSpanSel_not_div {n : Node} (h : isSpanSel n = true) :
    isDeuDiv n = false ∧ isDiv n = false := by
  cases n with
  | text s => cases h
  | elem t c a cs =>
    rw [isSpanSel, Bool.and_eq_true] at h
    have ht : t = "span" := by
      have := h.1
      rw [tagOf] at this
      simpa using this
    subst ht
    constructor
    · rw [isDeuDiv]
      simp [tagOf]
    · rw [isDiv]
      simp [tagOf]

theorem badSpanL_any : ∀ {cs : List Node} (anc : List AncInfo) {x : Node},
    x ∈ cs → badSpanN anc x = true → badSpanL anc cs = true := by
  intro cs
  induction cs with
  | nil => intro anc x hx; cases hx
  | cons y ys ih =>
    intro anc x hx hb
    rw [badSpanL, Bool.or_eq_true]
    rcases List.mem_cons.mp hx with rfl | hx
    · exact Or.inl hb
    · exact Or.inr (ih anc hx hb)

theorem ancInfoAt_nil (g : Forest) (a : Pos) :
    ancInfoAt g [] a =
      ⟨nodePred g isDeuDiv a, nodePred g isDiv a, nodePred g isChordBlock a⟩ := by
  rw [ancInfoAt]
  cases hg : getF g a with
  | none => simp [nodePred, hg]
  | some n => simp [nodePred, hg, pruneN_nilR]

theorem purgeStep_mem_div {f : Forest} {R : List Pos} {p x : Pos}
    (hx : x ∈ purgeStep f R p) :
    x ∈ R ∨ ∃ cn, getF f x = some cn ∧ isDiv cn = true := by
  cases hn : getF f p with
  | none => rw [purgeStep_eq_of_getF_none hn] at hx; exact Or.inl hx
  | some n =>
    cases hlv : live R p with
    | false => rw [purgeStep_eq_of_dead hn hlv] at hx; exact Or.inl hx
    | true =>
      cases ht : isTargetSpan n with
      | false => rw [purgeStep_eq_of_not_target hn ht] at hx; exact Or.inl hx
      | true =>
        cases hc : chordContainerFor f p with
        | none => rw [purgeStep_eq_of_no_container hn hc] at hx; exact Or.inl hx
        | some c =>
          cases hcn : getF f c with
          | none => rw [purgeStep_eq_of_no_cnode hn hc hcn] at hx; exact Or.inl hx
          | some cn =>
            cases hg : isChordBlock (pruneN R c cn) with
            | false =>
              rw [purgeStep_eq_of_guard_false hn hc hcn hg] at hx
              exact Or.inl hx
            | true =>
              rw [purgeStep_fire hn hlv ht hc hcn hg] at hx
              rw [List.mem_append] at hx
              rcases hx with hx | hx
              · exact Or.inl hx
              · rw [List.mem_singleton] at hx
                subst hx
                exact Or.inr (chordContainerFor_div hc)

theorem fold_mem_div (f : Forest) :
    ∀ (l : List Pos) (acc : List Pos),
      (∀ x ∈ acc, ∃ cn, getF f x = some cn ∧ isDiv cn = true) →
      ∀ x ∈ l.foldl (purgeStep f) acc,
        ∃ cn, getF f x = some cn ∧ isDiv cn = true := by
  intro l
  induction l with
  | nil => intro acc h x hx; exact h x hx
  | cons p l ih =>
    intro acc h x hx
    rw [List.foldl_cons] at hx
    refine ih _ ?_ x hx
    intro y hy
    rcases purgeStep_mem_div hy with hy | hy
    · exact h y hy
    · exact hy

theorem purgeRemovals_div {f : Forest} :
    ∀ r ∈ purgeRemovals f, ∃ cn, getF f r = some cn ∧ isDiv cn = true := by
  intro r hr
  rw [purgeRemovals, purgeRemovalsOver] at hr
  exact fold_mem_div f (spanPositions f) [] (by intro x hx; cases hx) r hr

theorem mem_of_getElem_some : ∀ {α : Type} {l : List α} {k : Nat} {x : α},
    l[k]? = some x → x ∈ l := by
  intro α l
  induction l with
  | nil => intro k x h; cases h
  | cons y ys ih =>
    intro k x h
    cases k with
    | zero =>
      simp only [List.getElem?_cons_zero, Option.some.injEq] at h
      exact h ▸ List.mem_cons_self y ys
    | succ k =>
      simp only [List.getElem?_cons_succ] at h
      exact List.mem_cons_of_mem y (ih h)

theorem untouched_of_flat_span {f : Forest} {R : List Pos} {p : Pos}
    {t : String} {cls : List String} {a : List (String × String)} {cs : List Node}
    (hn : getF f p = some (.elem t cls a cs))
    (hdiv : isDiv (.elem t cls a cs) = false)
    (hne : noElemsL cs = true) (hlv : live R p = true)
    (hRdiv : ∀ r ∈ R, ∃ cn, getF f r = some cn ∧ isDiv cn = true) :
    Untouched R p := by
  intro r hr
  refine ⟨(live_iff.mp hlv) r hr, ?_⟩
  cases hpr : isPre p r with
  | false => rfl
  | true =>
    exfalso
    obtain ⟨s, rfl⟩ := eq_append_of_isPre hpr
    obtain ⟨cn, hcn, hdv⟩ := hRdiv _ hr
    cases s with
    | nil =>
      rw [List.append_nil, hn] at hcn
      cases hcn
      rw [hdiv] at hdv
      exact absurd hdv Bool.false_ne_true
    | cons j s' =>
      cases p with
      | nil => cases hn
      | cons i p'' =>
        rw [getF_append, hn, Option.some_bind] at hcn
        obtain ⟨str, rfl⟩ := text_of_getN_flat hne (List.cons_ne_nil j s') hcn
        rw [isDiv_text] at hdv
        exact absurd hdv Bool.false_ne_true

theorem find_isDeu_map (f : Forest) (R : List Pos) :
    ∀ l : List Pos,
      (l.map (ancInfoAt f R)).find? (fun a => a.isDeu) =
        (l.find? (fun q =>
          match getF f q with | some n => isDeuDiv n | none => false)).map
          (ancInfoAt f R) := by
  intro l
  induction l with
  | nil => rfl
  | cons q l ih =>
    rw [List.map_cons, List.find?_cons, List.find?_cons]
    cases hg : getF f q with
    | none =>
      simp only [hg, ancInfoAt, nodePred]
      exact ih
    | some n =>
      simp only [hg, ancInfoAt, nodePred]
      cases hd : isDeuDiv n with
      | false => exact ih
      | true => simp [ancInfoAt, nodePred, hg, hd]

theorem find_isDivTag_map (f : Forest) (R : List Pos) :
    ∀ l : List Pos,
      (l.map (ancInfoAt f R)).find? (fun a => a.isDivTag) =
        (l.find? (fun q =>
          match getF f q with | some n => isDiv n | none => false)).map
          (ancInfoAt f R) := by
  intro l
  induction l with
  | nil => rfl
  | cons q l ih =>
    rw [List.map_cons, List.find?_cons, List.find?_cons]
    cases hg : getF f q with
    | none =>
      simp only [hg, ancInfoAt, nodePred]
      exact ih
    | some n =>
      simp only [hg, ancInfoAt, nodePred]
      cases hd : isDiv n with
      | false => exact ih
      | true => simp [ancInfoAt, nodePred, hg, hd]

theorem resolve_eq_containerMap {f : Forest} (R : List Pos) {q' : Pos} {i : Nat}
    {n : Node} (hn : getF f (q' ++ [i]) = some n)
    (hdeu : isDeuDiv n = false) (hdiv : isDiv n = false) :
    resolveContainer ((ancPrefixes q').map (ancInfoAt f R)) =
      (chordContainerFor f (q' ++ [i])).map (ancInfoAt f R) := by
  have hA : ((q' ++ [i]) :: ancPrefixes q').find?
      (fun q => match getF f q with | some n => isDeuDiv n | none => false) =
      (ancPrefixes q').find?
        (fun q => match getF f q with | some n => isDeuDiv n | none => false) := by
    rw [List.find?_cons]
    simp [hn, hdeu]
  have hB : ((q' ++ [i]) :: ancPrefixes q').find?
      (fun q => match getF f q with | some n => isDiv n | none => false) =
      (ancPrefixes q').find?
        (fun q => match getF f q with | some n => isDiv n | none => false) := by
    rw [List.find?_cons]
    simp [hn, hdiv]
  rw [resolveContainer, chordContainerFor, ancPrefixes_snoc, hA, hB,
    find_isDeu_map, find_isDivTag_map]
  cases (ancPrefixes q').find?
      (fun q => match getF f q with | some n => isDeuDiv n | none => false) with
  | some c => rfl
  | none =>
    cases (ancPrefixes q').find?
        (fun q => match getF f q with | some n => isDiv n | none => false) with
    | some c => rfl
    | none => rfl

mutual

theorem badSpan_pruneN_false (f : Forest) (hf : flatSpansF f = true) :
    ∀ (n : Node) (q' : Pos) (i : Nat),
      getF f (q' ++ [i]) = some n →
      live (purgeRemovals f) (q' ++ [i]) = true →
      badSpanN ((ancPrefixes q').map (ancInfoAt f (purgeRemovals f)))
        (pruneN (purgeRemovals f) (q' ++ [i]) n) = false
  | .text s, q', i, _, _ => rfl
  | .elem t c a cs, q', i, hn, hlv => by
      rw [pruneN, badSpanN, Bool.or_eq_false_iff]
      constructor
      · cases hsel : isSpanSel (.elem t c a
            (pruneL (purgeRemovals f) (q' ++ [i]) 0 cs)) with
        | false => simp [hsel]
        | true =>
          have hsel0 : isSpanSel (.elem t c a cs) = true := by
            simpa [isSpanSel, tagOf, hasClass] using hsel
          have hflat : flatSpansN (.elem t c a cs) = true := flatSpansF_at hf hn
          have hne : noElemsL cs = true := by
            have h := noElems_children_of_flat_span hflat hsel0
            simpa [childrenOf] using h
          have hnd := isSpanSel_not_div hsel0
          have hunt : Untouched (purgeRemovals f) (q' ++ [i]) :=
            untouched_of_flat_span hn hnd.2 hne hlv
              (fun r hr => purgeRemovals_div r hr)
          have hprune : pruneL (purgeRemovals f) (q' ++ [i]) 0 cs = cs :=
            pruneL_untouched cs (q' ++ [i]) 0 hunt
          rw [hprune]
          cases ht : isTargetSpan (.elem t c a cs) with
          | false => simp [ht]
          | true =>
            have hres := resolve_eq_containerMap (purgeRemovals f) hn hnd.1 hnd.2
            cases hcc : chordContainerFor f (q' ++ [i]) with
            | none =>
              rw [hcc] at hres
              simp [hres]
            | some cctr =>
              obtain ⟨cn, hcn, _⟩ := chordContainerFor_div hcc
              rw [hcc] at hres
              have hp : (q' ++ [i]) ∈ spanPositions f :=
                mem_posOfF_of_getF (fun s => rfl) hn hsel0
              have hlv' : live ((spanPositions f).foldl (purgeStep f) [])
                  (q' ++ [i]) = true := by
                rw [purgeRemovals, purgeRemovalsOver] at hlv
                exact hlv
              have hguard := fold_guard_false f (spanPositions f) []
                (q' ++ [i]) hp hlv' hn ht hcc hcn
              have hguard' : isChordBlock (pruneN (purgeRemovals f) cctr cn)
                  = false := by
                rw [purgeRemovals, purgeRemovalsOver]
                exact hguard
              simp [ht, hres, ancInfoAt, hcn, hguard']
      · have hinfo : (⟨isDeuDiv (.elem t c a
            (pruneL (purgeRemovals f) (q' ++ [i]) 0 cs)),
            isDiv (.elem t c a (pruneL (purgeRemovals f) (q' ++ [i]) 0 cs)),
            isChordBlock (.elem t c a
              (pruneL (purgeRemovals f) (q' ++ [i]) 0 cs))⟩ : AncInfo) =
            ancInfoAt f (purgeRemovals f) (q' ++ [i]) := by
          simp only [ancInfoAt, nodePred, hn, pruneN]
          simp [isDeuDiv, isDiv, tagOf, hasClass]
        rw [hinfo]
        have hanc : ancInfoAt f (purgeRemovals f) (q' ++ [i]) ::
            (ancPrefixes q').map (ancInfoAt f (purgeRemovals f)) =
            (ancPrefixes (q' ++ [i])).map (ancInfoAt f (purgeRemovals f)) := by
          rw [ancPrefixes_snoc, List.map_cons]
        rw [hanc]
        exact badSpan_pruneL_false f hf cs (q' ++ [i]) 0
          (fun k ch hk => by simpa using getF_child hn hk)

theorem badSpan_pruneL_false (f : Forest) (hf : flatSpansF f = true) :
    ∀ (ns : List Node) (q : Pos) (i : Nat),
      (∀ k ch, ns[k]? = some ch → getF f (q ++ [i + k]) = some ch) →
      badSpanL ((ancPrefixes q).map (ancInfoAt f (purgeRemovals f)))
        (pruneL (purgeRemovals f) q i ns) = false
  | [], _, _, _ => rfl
  | n :: ns, q, i, hch => by
      have hih : ∀ k ch, ns[k]? = some ch →
          getF f (q ++ [i + 1 + k]) = some ch := by
        intro k ch hk
        have h1 : (n :: ns)[k + 1]? = some ch := by simpa using hk
        have h2 := hch (k + 1) ch h1
        have he : i + (k + 1) = i + 1 + k := by omega
        rwa [he] at h2
      rw [pruneL]
      cases hlv : live (purgeRemovals f) (q ++ [i]) with
      | false =>
        rw [if_neg Bool.false_ne_true, List.nil_append]
        exact badSpan_pruneL_false f hf ns q (i + 1) hih
      | true =>
        rw [if_pos rfl, List.singleton_append, badSpanL,
          Bool.or_eq_false_iff]
        have hn0 : getF f (q ++ [i]) = some n := by
          have h := hch 0 n (by simp)
          simpa using h
        exact ⟨badSpan_pruneN_false f hf n q i hn0 hlv,
          badSpan_pruneL_false f hf ns q (i + 1) hih⟩

end

theorem badSpan_purge_false {f : Forest} (hf : flatSpansF f = true) :
    badSpanF (purge f) = false := by
  rw [purge, prune, badSpanF]
  have h := badSpan_pruneL_false f hf f [] 0
    (fun k ch hk => by simpa [getF_single] using hk)
  rw [ancPrefixes_nil, List.map_nil] at h
  exact h

theorem badSpanN_of_witness (f : Forest) :
    ∀ (s : Pos) {q' : Pos} {i : Nat} {n : Node},
      getF f (q' ++ [i]) = some n →
      ∀ {m : Node}, getN n s = some m →
      isSpanSel m = true → isTargetSpan m = true →
      ∀ {c : Pos}, chordContainerFor f ((q' ++ [i]) ++ s) = some c →
      ∀ {cn : Node}, getF f c = some cn → isChordBlock cn = true →
      badSpanN ((ancPrefixes q').map (ancInfoAt f [])) n = true := by
  intro s
  induction s with
  | nil =>
    intro q' i n hn m hm hsel ht c hc cn hcn hg
    rw [getN_nil] at hm
    cases hm
    rw [List.append_nil] at hc
    cases n with
    | text str => cases hsel
    | elem t cl a cs =>
      rw [badSpanN, Bool.or_eq_true]
      left
      have hnd := isSpanSel_not_div hsel
      have hres := resolve_eq_containerMap [] hn hnd.1 hnd.2
      rw [hc] at hres
      simp only [hsel, ht, hres, Bool.true_and]
      simp [ancInfoAt_nil, nodePred, hcn, hg]
  | cons j s' ih =>
    intro q' i n hn m hm hsel ht c hc cn hcn hg
    cases n with
    | text str => cases hm
    | elem t cl a cs =>
      rw [getN] at hm
      cases hcj : cs[j]? with
      | none => rw [hcj] at hm; cases hm
      | some ch =>
        rw [hcj] at hm
        simp only at hm
        have hch : getF f ((q' ++ [i]) ++ [j]) = some ch := getF_child hn hcj
        have hc' : chordContainerFor f (((q' ++ [i]) ++ [j]) ++ s') = some c := by
          have he : (q' ++ [i]) ++ (j :: s') = ((q' ++ [i]) ++ [j]) ++ s' := by
            simp
          rwa [he] at hc
        have hrec := ih hch hm hsel ht hc' hcn hg
        rw [badSpanN, Bool.or_eq_true]
        right
        have hinfo : (⟨isDeuDiv (.elem t cl a cs), isDiv (.elem t cl a cs),
            isChordBlock (.elem t cl a cs)⟩ : AncInfo) =
            ancInfoAt f [] (q' ++ [i]) := by
          rw [ancInfoAt_nil]
          simp [nodePred, hn]
        rw [hinfo]
        have hanc : ancInfoAt f [] (q' ++ [i]) ::
            (ancPrefixes q').map (ancInfoAt f []) =
            (ancPrefixes (q' ++ [i])).map (ancInfoAt f []) := by
          rw [ancPrefixes_snoc, List.map_cons]
        rw [hanc]
        exact badSpanL_any _ (mem_of_getElem_some hcj) hrec

theorem badSpanF_of_witness {f : Forest} {p : Pos} {n : Node}
    (hn : getF f p = some n) (hsel : isSpanSel n = true)
    (ht : isTargetSpan n = true) {c : Pos} (hc : chordContainerFor f p = some c)
    {cn : Node} (hcn : getF f c = some cn) (hg : isChordBlock cn = true) :
    badSpanF f = true := by
  cases p with
  | nil => cases hn
  | cons i rest =>
    rw [getF_cons] at hn
    cases hroot : f[i]? with
    | none => rw [hroot] at hn; cases hn
    | some root =>
      rw [hroot, Option.some_bind] at hn
      have h0 : getF f ([] ++ [i]) = some root := by
        rw [List.nil_append, getF_single, hroot]
      have hc' : chordContainerFor f (([] ++ [i]) ++ rest) = some c := by
        simpa using hc
      have hb := badSpanN_of_witness f rest h0 hn hsel ht hc' hcn hg
      rw [badSpanF]
      have hmap : ((ancPrefixes ([] : Pos)).map (ancInfoAt f [])) = [] := by
        rw [ancPrefixes_nil]; rfl
      rw [hmap] at hb
      exact badSpanL_any [] (mem_of_getElem_some hroot) hb

theorem foldl_purgeStep_nil_of_no_badSpan {f : Forest} (hb : badSpanF f = false) :
    ∀ l : List Pos, (∀ p ∈ l, p ∈ spanPositions f) →
      l.foldl (purgeStep f) [] = [] := by
  intro l
  induction l with
  | nil => intro _; rfl
  | cons p l ih =>
    intro hsub
    rw [List.foldl_cons]
    have hstep : purgeStep f [] p = [] := by
      cases hn : getF f p with
      | none => exact purgeStep_eq_of_getF_none hn
      | some n =>
        cases ht : isTargetSpan n with
        | false => exact purgeStep_eq_of_not_target hn ht
        | true =>
          cases hc : chordContainerFor f p with
          | none => exact purgeStep_eq_of_no_container hn hc
          | some c =>
            cases hcn : getF f c with
            | none => exact purgeStep_eq_of_no_cnode hn hc hcn
            | some cn =>
              cases hg : isChordBlock (pruneN [] c cn) with
              | false => exact purgeStep_eq_of_guard_false hn hc hcn hg
              | true =>
                exfalso
                obtain ⟨m, hm, hsel⟩ :=
                  getF_of_mem_posOfF (hsub p (List.mem_cons_self p l))
                rw [hn] at hm
                cases hm
                rw [pruneN_nilR] at hg
                have := badSpanF_of_witness hn hsel ht hc hcn hg
                rw [this] at hb
                cases hb
    rw [hstep]
    exact ih (fun x hx => hsub x (List.mem_cons_of_mem p hx))

theorem purge_noop_of_no_badSpan {f : Forest} (hb : badSpanF f = false) :
    purge f = f := by
  rw [purge]
  have hR : purgeRemovals f = [] := by
    rw [purgeRemovals, purgeRemovalsOver]
    exact foldl_purgeStep_nil_of_no_badSpan hb (spanPositions f) (fun p hp => hp)
  rw [hR]
  exact prune_nilR f

theorem purge_idem_of_flatSpans {f : Forest} (hf : flatSpansF f = true) :
    purge (purge f) = purge f :=
  purge_noop_of_no_badSpan (badSpan_purge_false hf)

/-! ### Silent no-op lemmas for the individual operations -/

theorem purge_noop_of_no_spans {f : Forest} (h : spanPositions f = []) :
    purge f = f := by
  rw [purge, purgeRemovals, purgeRemovalsOver, h, List.foldl_nil]
  exact prune_nilR f

theorem sort_noop_of_no_deuDivs {f : Forest} (h : deuDivPositions f = []) :
    sortChordBlocks f = f := by
  rw [sortChordBlocks, if_pos]
  have h0 : blocksInL f = 0 := by
    apply blocksInL_of_no_deuDiv f [] 0
    rw [deuDivPositions, posOfF] at h
    exact h
  omega

theorem click_noop_of_no_candidates {f : Forest} (h : candPositions f = []) :
    clickSummaryIfPresent f = (f, none) := by
  rw [clickSummaryIfPresent]
  cases hd : onDiagramsPage f with
  | false => rfl
  | true =>
    rw [h]
    rfl

theorem click_noop_of_no_viewDiagrams {f : Forest} (h : viewDiagramsPositions f = []) :
    clickSummaryIfPresent f = (f, none) := by
  apply click_none_of_no_diagrams
  rw [onDiagramsPage, h]
  rfl

/-! ### The debouncer invariant -/

theorem sortSched_inv (es : List SortEvent) :
    (sortSchedRun es).queued = if (sortSchedRun es).pending then 1 else 0 := by
  rw [sortSchedRun]
  suffices h : ∀ s : SortSched, s.queued = (if s.pending then 1 else 0) →
      (es.foldl sortSchedStep s).queued =
        if (es.foldl sortSchedStep s).pending then 1 else 0 by
    exact h ⟨false, 0, 0⟩ rfl
  induction es with
  | nil => intro s hs; exact hs
  | cons e es ih =>
    intro s hs
    rw [List.foldl_cons]
    apply ih
    cases e with
    | queueSort =>
      cases hp : s.pending with
      | true =>
        have hstep : sortSchedStep s .queueSort = s := by
          simp [sortSchedStep, hp]
        rw [hstep]
        exact hs
      | false =>
        have hq : s.queued = 0 := by simpa [hp] using hs
        have hstep : sortSchedStep s .queueSort = ⟨true, s.queued + 1, s.fired⟩ := by
          simp [sortSchedStep, hp]
        rw [hstep, hq]
        rfl
    | timerFire =>
      cases hq : s.queued with
      | zero =>
        have hstep : sortSchedStep s .timerFire = s := by
          simp [sortSchedStep, hq]
        rw [hstep]
        exact hs
      | succ m =>
        have hstep : sortSchedStep s .timerFire =
            ⟨false, s.queued - 1, s.fired + 1⟩ := by
          simp [sortSchedStep, hq]
        rw [hstep]
        have h1 : s.queued ≤ 1 := by
          rw [hs]
          cases s.pending <;> simp
        simp only [ite_false, Bool.false_eq_true]
        omega

/-! ## The ten claims -/

/-- Claim C1 (amended): when no container of the specification's removal set
sits inside another, `purge` removes exactly the chord containers of the
blocklisted `span.cbg1qdk` spans that pass the chord-diagram guard, leaving
everything else in place.  (As stated over all documents the claim fails:
with nested candidate containers the sequential loop evaluates the guard on
already-pruned subtrees, see the counterexample.) -/
theorem claim_C1 {f : Forest} (h : PairwiseNonNested (specContainers f)) :
    purge f = specPurge f :=
  purge_eq_specPurge_of_nonNested h

/-- Witness for claim C1 at a flat two-block document. -/
theorem claim_C1_witness : purge exPurgeOk = specPurge exPurgeOk :=
  claim_C1 (by unfold PairwiseNonNested; decide)

/-- Counterexample to claim C1 as stated: with one candidate container
nested in another, `purge` differs from the specified removal set. -/
theorem claim_C1_cex : purge exNested ≠ specPurge exNested :=
  fun h => absurd (congrArg countElemsF h) (by decide)

/-- Claim C2 (amended): on a document with at least two chord blocks none of
which is nested inside another, after `sortChordBlocks` every parent's chord
blocks appear in nondecreasing order of their chord key.  (As stated the
claim fails: with nested blocks the keys are read before the recursive
reordering of descendants, see the counterexample.) -/
theorem claim_C2 {f : Forest} (hnn : noNestedF f = true)
    (hcount : 2 ≤ blocksInL f) :
    sortedDeepF (sortChordBlocks f) = true :=
  sortChordBlocks_sorted hcount hnn

/-- Witness for claim C2 at a two-block document. -/
theorem claim_C2_witness : sortedDeepF (sortChordBlocks exSortOk) = true :=
  claim_C2 (by decide) (by decide)

/-- Counterexample to claim C2 as stated: a document with four (nested)
chord blocks that `sortChordBlocks` leaves out of key order. -/
theorem claim_C2_cex :
    2 ≤ blocksInL exKeyShift ∧
      sortedDeepF (sortChordBlocks exKeyShift) = false := by
  constructor
  · decide
  · decide

/-- Claim C3: `sortChordBlocks` only reorders — the result is the original
document up to recursively permuting children (so no element is created,
removed, or moved to a different parent), and the element count is
preserved. -/
theorem claim_C3 (f : Forest) :
    ReorderL f (sortChordBlocks f) ∧
      countElemsF (sortChordBlocks f) = countElemsF f :=
  sortChordBlocks_reorders f

/-- Claim C4: `clickSummaryIfPresent` clicks only in Diagrams view, and then
clicks exactly the first candidate (`button`, `[role="button"]`, or `a`)
whose normalized text matches Summary case-insensitively and that is not yet
marked, marking it; off the Diagrams view it clicks nothing. -/
theorem claim_C4 (f : Forest) (p : Pos)
    (hp : (clickSummaryIfPresent f).2 = some p) :
    onDiagramsPage f = true ∧
    (∃ l₁ l₂, candPositions f = l₁ ++ p :: l₂ ∧
      ∀ x ∈ l₁, clickPred f x = false) ∧
    clickPred f p = true ∧
    clickSummaryIfPresent f = (markF f p, some p) ∧
    (∀ g : Forest, onDiagramsPage g = false →
      clickSummaryIfPresent g = (g, none)) := by
  obtain ⟨hd, hfind⟩ := click_some_iff.mp hp
  refine ⟨hd, ?_, List.find?_some hfind, ?_, ?_⟩
  · obtain ⟨l₁, l₂, heq, hfalse⟩ := find?_split (clickPred f) (candPositions f) p hfind
    exact ⟨l₁, l₂, heq, hfalse⟩
  · simp [clickSummaryIfPresent, hd, hfind]
  · intro g hg
    exact click_none_of_no_diagrams hg

/-- Witness for claim C4 at a Diagrams-view document whose first Summary
candidate is the button at position 1. -/
theorem claim_C4_witness :
    onDiagramsPage exClick = true ∧
    (∃ l₁ l₂, candPositions exClick = l₁ ++ [1] :: l₂ ∧
      ∀ x ∈ l₁, clickPred exClick x = false) ∧
    clickPred exClick [1] = true ∧
    clickSummaryIfPresent exClick = (markF exClick [1], some [1]) ∧
    (∀ g : Forest, onDiagramsPage g = false →
      clickSummaryIfPresent g = (g, none)) :=
  claim_C4 exClick [1] (by decide)

/-- Claim C5: the exclusion set is the fixed list of 28 distinct chord
strings, and membership in the set used by `isTargetSpan` is exactly
membership in that list.  (All operations of the embedding are pure
functions that never rebuild the list, so no operation mutates it.) -/
theorem claim_C5 :
    blockedChordsList.length = 28 ∧ blockedChordsList.Nodup ∧
    ∀ s : String, blockedChords s = true ↔ s ∈ blockedChordsList := by
  refine ⟨by decide, by decide, ?_⟩
  intro s
  rw [blockedChords]
  exact List.elem_iff

/-- Claim C6: missing selectors are silent no-ops — a document with no
`span.cbg1qdk` is unchanged by `purge`, one with no `div.deu1fhf` is
unchanged by `sortChordBlocks`, and one with no click candidate, or no
`.view-diagrams` element, is unchanged by `clickSummaryIfPresent` (which
then clicks nothing); all operations are total functions, so they complete
without error. -/
theorem claim_C6 (f g h k : Forest)
    (h1 : spanPositions f = []) (h2 : deuDivPositions g = [])
    (h3 : candPositions h = []) (h4 : viewDiagramsPositions k = []) :
    purge f = f ∧ sortChordBlocks g = g ∧
    clickSummaryIfPresent h = (h, none) ∧
    clickSummaryIfPresent k = (k, none) :=
  ⟨purge_noop_of_no_spans h1, sort_noop_of_no_deuDivs h2,
   click_noop_of_no_candidates h3, click_noop_of_no_viewDiagrams h4⟩

/-- Witness for claim C6 at a document none of the selectors match. -/
theorem claim_C6_witness :
    purge exPlain = exPlain ∧ sortChordBlocks exPlain = exPlain ∧
    clickSummaryIfPresent exPlain = (exPlain, none) ∧
    clickSummaryIfPresent exPlain = (exPlain, none) :=
  claim_C6 exPlain exPlain exPlain exPlain
    (by decide) (by decide) (by decide) (by decide)

/-- Claim C7: sorting is debounced — after any event trace at most one sort
callback is scheduled (exactly one iff the pending flag is set), a
`queueSort` arriving while a sort is pending changes nothing, and a firing
timer clears the pending flag and performs the one sort. -/
theorem claim_C7 (es : List SortEvent) (s : SortSched)
    (hp : s.pending = true) (hq : s.queued ≠ 0) :
    (sortSchedRun es).queued ≤ 1 ∧
    sortSchedStep s .queueSort = s ∧
    (sortSchedStep s .timerFire).pending = false ∧
    (sortSchedStep s .timerFire).fired = s.fired + 1 := by
  have h0 : (s.queued == 0) = false := by
    cases hqq : s.queued == 0 with
    | false => rfl
    | true =>
      have : s.queued = 0 := by simpa using hqq
      exact absurd this hq
  refine ⟨?_, ?_, ?_, ?_⟩
  · rw [sortSched_inv es]
    cases (sortSchedRun es).pending <;> simp
  · simp [sortSchedStep, hp]
  · simp [sortSchedStep, h0]
  · simp [sortSchedStep, h0]

/-- Witness for claim C7 at a concrete trace and a pending state. -/
theorem claim_C7_witness :
    (sortSchedRun [.queueSort, .queueSort, .timerFire]).queued ≤ 1 ∧
    sortSchedStep ⟨true, 1, 0⟩ .queueSort = ⟨true, 1, 0⟩ ∧
    (sortSchedStep ⟨true, 1, 0⟩ .timerFire).pending = false ∧
    (sortSchedStep ⟨true, 1, 0⟩ .timerFire).fired =
      (⟨true, 1, 0⟩ : SortSched).fired + 1 :=
  claim_C7 [.queueSort, .queueSort, .timerFire] ⟨true, 1, 0⟩
    (by decide) (by decide)

/-- Claim C8 (amended): for an added node that is not itself a target span
containing further target spans strictly below it, the observer callback's
removals on the document equal running the purge loop over the subtree's
span positions within the document.  (As stated — purge applied to a tree
containing just the node and its subtree — the claim fails: container
resolution walks ancestors of the added node that the detached subtree does
not have, see the counterexample.) -/
theorem claim_C8 {f : Forest} {p : Pos} {n : Node} (hn : getF f p = some n)
    (hns : ¬(isSpanSel n = true ∧ isTargetSpan n = true ∧
      ∃ q ∈ strictSpansUnder f p, nodePred f isTargetSpan q = true)) :
    observerHandleAdded f p = purgeUnderIncl f p :=
  observer_eq_purgeUnderIncl hn hns

/-- Witness for claim C8 at a directly-added target span. -/
theorem claim_C8_witness :
    observerHandleAdded exAddedSpan [0, 1] = purgeUnderIncl exAddedSpan [0, 1] :=
  claim_C8 rfl (by decide)

/-- Counterexample to claim C8 as stated: for a freshly added target span,
the observer removes its container from the document, while `purge` on the
standalone subtree of the span removes nothing. -/
theorem claim_C8_cex :
    observerHandleAdded exAddedSpan [0, 1] ≠ exAddedSpan ∧
    purge (subtreeForestAt exAddedSpan [0, 1]) =
      subtreeForestAt exAddedSpan [0, 1] :=
  ⟨fun h => absurd (congrArg countElemsF h) (by decide), rfl⟩

/-- Claim C9 (amended): on documents whose chord-label spans contain only
text (no element descendants — the shape the real page has), `purge` is
idempotent.  (As stated over all documents the claim fails: removing a
block nested inside a span's text changes that span's `textContent`, which
can turn a previously kept span into a blocklisted one, see the
counterexample.) -/
theorem claim_C9 {f : Forest} (hf : flatSpansF f = true) :
    purge (purge f) = purge f :=
  purge_idem_of_flatSpans hf

/-- Witness for claim C9 at a flat two-block document. -/
theorem claim_C9_witness : purge (purge exPurgeOk) = purge exPurgeOk :=
  claim_C9 (by decide)

/-- Counterexample to claim C9 as stated: a chord block nested inside a
span makes the second `purge` remove what the first one kept. -/
theorem claim_C9_cex : purge (purge exSpanWithBlock) ≠ purge exSpanWithBlock :=
  fun h => absurd (congrArg countElemsF h) (by decide)

/-- Claim C10: across any number of consecutive `clickSummaryIfPresent`
invocations no position is clicked twice, and a position already carrying
the clicked-summary mark is never clicked at all. -/
theorem claim_C10 (f : Forest) (n : Nat) (q : Pos)
    (hm : nodePred f clickedSummaryMark q = true) :
    ((clickSeq f n).2).Nodup ∧ q ∉ (clickSeq f n).2 :=
  ⟨clickSeq_nodup n f, clickSeq_not_mem_of_marked n f q hm⟩

/-- Witness for claim C10 at a document whose Summary button is already
marked. -/
theorem claim_C10_witness :
    ((clickSeq (markF exClick [1]) 2).2).Nodup ∧
    [1] ∉ (clickSeq (markF exClick [1]) 2).2 :=
  claim_C10 (markF exClick [1]) 2 [1] (by decide)

end ChordSorter
